import Mathlib

/-!
# A verification development for the sigalign anchor-and-extend aligner

This file gives a shallow embedding, in Lean 4, of the core of the aligner:

* `sigalign/src/aligner/alignment_condition.rs` — the penalty model
  (gcd-reduced penalties, fixed-point cutoff) and the pattern-size planner;
* `src/alignment/anchor.rs` — anchor construction (impeccable extensions,
  EMP estimation, checkpoints), the per-anchor alignment driver around the
  drop-out wavefront extender, and the result deduplication.

Modelling conventions:

* Rust `usize` is `ℕ`; `usize` subtraction that cannot underflow in context
  is Nat-subtraction; the `as usize` cast of a float is `Int.toNat ∘ Int.floor`
  (Rust saturates negative floats to 0, and the casted values are results of
  `.ceil()`/exact arithmetic, so truncation toward zero agrees with `⌊·⌋.toNat`).
* `f32`/`f64` arithmetic is modelled by exact `ℚ` arithmetic.
* `HashSet<usize>` is `Finset ℕ`; the iteration order of a hash container,
  which in Rust depends on a per-instance random seed, is made explicit as a
  `List ℕ` parameter wherever the code iterates over such a container.
* The external FM-index (`index.locate_with_klt`) is an explicit function
  parameter `locate`.
* The drop-out wavefront extender (`dropout_wf_align` / `dropout_wf_backtrace`
  from the `dwfa` module, not part of the sources) is abstracted by an oracle:
  for each call site it may either report a drop-out or report success with an
  alignment result, a score and the set of crossed checkpoints.  Theorems about
  the driver are proved for every oracle, hence in particular for the real
  extender.
-/

namespace Sigalign

/-! ## Penalty model and planner (`alignment_condition.rs`) -/

/-- `PRECISION_SCALE`.  Modelled from the spec: the constant itself is defined
outside the provided sources; the spec fixes it to 10 000. -/
def PRECISION_SCALE : ℕ := 10000

/-- `Penalties { x, o, e }` (mismatch, gap open, gap extend). -/
structure Penalties where
  x : ℕ
  o : ℕ
  e : ℕ
deriving DecidableEq

/-- `Cutoff` of `alignment_condition.rs`: minimum aligned length and the
fixed-point maximum penalty per length. -/
structure Cutoff where
  minimum_aligned_length : ℕ
  maximum_penalty_per_scale : ℕ
deriving DecidableEq

/-- `MinPenaltyForPattern { odd, even }`. -/
structure MinPenaltyForPattern where
  odd : ℕ
  even : ℕ
deriving DecidableEq

/-- `Penalties::gcd_of_penalties`. -/
def Penalties.gcd_of_penalties (p : Penalties) : ℕ :=
  Nat.gcd (Nat.gcd p.x p.o) p.e

/-- `Penalties::divide_by_gcd`. -/
def Penalties.divide_by_gcd (p : Penalties) (g : ℕ) : Penalties :=
  ⟨p.x / g, p.o / g, p.e / g⟩

/-- `Cutoff::new`: the float cutoff is scaled by `PRECISION_SCALE` and
truncated to an integer (`as usize`). -/
def Cutoff.new (minimum_aligned_length : ℕ) (maximum_penalty_per_length : ℚ) : Cutoff :=
  ⟨minimum_aligned_length, (⌊maximum_penalty_per_length * (PRECISION_SCALE : ℚ)⌋).toNat⟩

/-- `Cutoff::divide_by_gcd` (only the scaled penalty is divided). -/
def Cutoff.divide_by_gcd (c : Cutoff) (g : ℕ) : Cutoff :=
  ⟨c.minimum_aligned_length, c.maximum_penalty_per_scale / g⟩

/-- `MinPenaltyForPattern::new`. -/
def MinPenaltyForPattern.new (p : Penalties) : MinPenaltyForPattern :=
  if p.x ≤ p.o + p.e then
    { odd := p.x
      even := if p.x * 2 ≤ p.o + p.e * 2 then p.x else p.o + p.e * 2 - p.x }
  else
    { odd := p.o + p.e, even := p.e }

/-- `upper_bound` of one planner iteration:
`((min_len + 4) as f32 / (2n) as f32 - 2).ceil()`. -/
def upperBound (m n : ℕ) : ℤ :=
  ⌈((m : ℚ) + 4) / (2 * (n : ℚ)) - 2⌉

/-- `lower_bound` of one planner iteration:
`((min_len + 4) as f32 / (2n + 2) as f32 - 2).ceil()`. -/
def lowerBound (m n : ℕ) : ℤ :=
  ⌈((m : ℚ) + 4) / (2 * (n : ℚ) + 2) - 2⌉

/-- `max_penalty` of one planner iteration, when the scaled cutoff `q` is
positive:
`((SCALE·n·(odd+even) + 4q) as f32 / (2(n+1)q) as f32).ceil() - 2`. -/
def maxPenaltyBound (q s n : ℕ) : ℤ :=
  ⌈((PRECISION_SCALE * s * n : ℕ) + (4 * q : ℕ) : ℚ) / ((2 * (n + 1) * q : ℕ) : ℚ)⌉ - 2

/-- The candidate `pattern_size = max_penalty.min(upper_bound)` of one planner
iteration.  When `q = 0` the Rust `f32` quotient is `+∞` (or `NaN` when the
numerator is also 0); in both cases `f32::min` returns the other operand, so
the candidate is exactly `upper_bound`. -/
def patternSizeAt (m q s n : ℕ) : ℤ :=
  if q = 0 then upperBound m n
  else min (maxPenaltyBound q s n) (upperBound m n)

/-- The body of the `loop` of `max_pattern_size_satisfying_cutoff`, searching
`n = start, start+1, …`.  The source loop is unbounded; the `fuel` argument is
only a termination device, and `loopGo_finds_first` below shows the fuel used
by `max_pattern_size_satisfying_cutoff` is never exhausted. -/
def loopGo (m q s : ℕ) : ℕ → ℕ → ℕ
  | 0, _ => 0
  | fuel + 1, n =>
    if lowerBound m n ≤ patternSizeAt m q s n then (patternSizeAt m q s n).toNat
    else loopGo m q s fuel (n + 1)

/-- `AlignmentCondition::max_pattern_size_satisfying_cutoff`. -/
def max_pattern_size_satisfying_cutoff (c : Cutoff) (mp : MinPenaltyForPattern) : ℕ :=
  loopGo c.minimum_aligned_length c.maximum_penalty_per_scale (mp.odd + mp.even)
    (c.minimum_aligned_length + 4) 1

/-- `AlignmentCondition`. -/
structure AlignmentCondition where
  penalties : Penalties
  cutoff : Cutoff
  min_penalty_for_pattern : MinPenaltyForPattern
  gcd : ℕ
  pattern_size : ℕ
deriving DecidableEq

/-- `AlignmentCondition::new_with_penalties_and_cutoff`. -/
def new_with_penalties_and_cutoff (penalties : Penalties) (cutoff : Cutoff) :
    AlignmentCondition :=
  let gcd := penalties.gcd_of_penalties
  let penalties := penalties.divide_by_gcd gcd
  let cutoff := cutoff.divide_by_gcd gcd
  let min_penalty_for_pattern := MinPenaltyForPattern.new penalties
  { penalties := penalties
    cutoff := cutoff
    min_penalty_for_pattern := min_penalty_for_pattern
    gcd := gcd
    pattern_size := max_pattern_size_satisfying_cutoff cutoff min_penalty_for_pattern }

/-- `AlignmentCondition::new`, with its two validation errors. -/
def AlignmentCondition.new (mismatch_penalty gap_open_penalty gap_extend_penalty
    minimum_aligned_length : ℕ) (maximum_penalty_per_length : ℚ) :
    Except String AlignmentCondition :=
  if gap_extend_penalty = 0 then
    .error "Gap extend penalty only allow positive integer."
  else if maximum_penalty_per_length ≤ 0 then
    .error "Maximum penalty per length only allow positive value."
  else
    .ok (new_with_penalties_and_cutoff
      ⟨mismatch_penalty, gap_open_penalty, gap_extend_penalty⟩
      (Cutoff.new minimum_aligned_length maximum_penalty_per_length))

/-- `AlignmentCondition::get_penalties`. -/
def AlignmentCondition.get_penalties (a : AlignmentCondition) : List ℕ :=
  [a.penalties.x * a.gcd, a.penalties.o * a.gcd, a.penalties.e * a.gcd]

end Sigalign

namespace Sigalign

/-! ## Claims C8 and C9 -/

lemma gcd_dvd_x (x o e : ℕ) : (Penalties.mk x o e).gcd_of_penalties ∣ x :=
  dvd_trans (Nat.gcd_dvd_left _ _) (Nat.gcd_dvd_left x o)

lemma gcd_dvd_o (x o e : ℕ) : (Penalties.mk x o e).gcd_of_penalties ∣ o :=
  dvd_trans (Nat.gcd_dvd_left _ _) (Nat.gcd_dvd_right x o)

lemma gcd_dvd_e (x o e : ℕ) : (Penalties.mk x o e).gcd_of_penalties ∣ e :=
  Nat.gcd_dvd_right _ _

/-- C8: a successful construction stores the penalties divided by
`g = gcd(x, o, e)`, and `get_penalties` restores exactly the supplied
`[x, o, e]` by multiplying the retained `g` back. -/
theorem claim_C8_gcd_round_trip (x o e m : ℕ) (p : ℚ) (he : e ≠ 0) (hp : 0 < p) :
    ∃ ac : AlignmentCondition,
      AlignmentCondition.new x o e m p = .ok ac ∧
      ac.gcd = (Penalties.mk x o e).gcd_of_penalties ∧
      ac.penalties = (Penalties.mk x o e).divide_by_gcd (Penalties.mk x o e).gcd_of_penalties ∧
      ac.get_penalties = [x, o, e] := by
  refine ⟨new_with_penalties_and_cutoff ⟨x, o, e⟩ (Cutoff.new m p), ?_, rfl, rfl, ?_⟩
  · rw [AlignmentCondition.new, if_neg he, if_neg (not_le.mpr hp)]
  · simp only [new_with_penalties_and_cutoff, AlignmentCondition.get_penalties,
      Penalties.divide_by_gcd]
    rw [Nat.div_mul_cancel (gcd_dvd_x x o e), Nat.div_mul_cancel (gcd_dvd_o x o e),
      Nat.div_mul_cancel (gcd_dvd_e x o e)]

/-- Witness for C8 at the concrete penalties (4, 6, 2), whose gcd is 2. -/
theorem claim_C8_witness :
    ∃ ac : AlignmentCondition,
      AlignmentCondition.new 4 6 2 50 (3 / 20) = .ok ac ∧
      ac.gcd = (Penalties.mk 4 6 2).gcd_of_penalties ∧
      ac.penalties = (Penalties.mk 4 6 2).divide_by_gcd (Penalties.mk 4 6 2).gcd_of_penalties ∧
      ac.get_penalties = [4, 6, 2] :=
  claim_C8_gcd_round_trip 4 6 2 50 (3 / 20) (by decide) (by norm_num)

/-- C9: construction fails with the human-readable gap-extend message when
`e = 0`, fails with the human-readable cutoff message when the (remaining)
maximum penalty per length is ≤ 0, and returns a constructed aligner in every
other case — the error arises in exactly these two cases. -/
theorem claim_C9_config_errors (x o e m : ℕ) (p : ℚ) :
    (e = 0 →
      AlignmentCondition.new x o e m p =
        .error "Gap extend penalty only allow positive integer.") ∧
    (e ≠ 0 → p ≤ 0 →
      AlignmentCondition.new x o e m p =
        .error "Maximum penalty per length only allow positive value.") ∧
    (e ≠ 0 → 0 < p →
      AlignmentCondition.new x o e m p =
        .ok (new_with_penalties_and_cutoff ⟨x, o, e⟩ (Cutoff.new m p))) := by
  refine ⟨fun h0 => ?_, fun h0 hp => ?_, fun h0 hp => ?_⟩
  · rw [AlignmentCondition.new, if_pos h0]
  · rw [AlignmentCondition.new, if_neg h0, if_pos hp]
  · rw [AlignmentCondition.new, if_neg h0, if_neg (not_le.mpr hp)]

/-- Witness for C9: both error cases and the success case at concrete inputs. -/
theorem claim_C9_witness :
    AlignmentCondition.new 4 6 0 50 (3 / 20) =
      .error "Gap extend penalty only allow positive integer." ∧
    AlignmentCondition.new 4 6 2 50 0 =
      .error "Maximum penalty per length only allow positive value." ∧
    AlignmentCondition.new 4 6 2 50 (3 / 20) =
      .ok (new_with_penalties_and_cutoff ⟨4, 6, 2⟩ (Cutoff.new 50 (3 / 20))) :=
  ⟨(claim_C9_config_errors 4 6 0 50 (3 / 20)).1 rfl,
   (claim_C9_config_errors 4 6 2 50 0).2.1 (by decide) le_rfl,
   (claim_C9_config_errors 4 6 2 50 (3 / 20)).2.2 (by decide) (by norm_num)⟩

end Sigalign

namespace Sigalign

/-! ## Claim C7: planner monotonicity -/

/-- The planner's loop guard at iteration `n`. -/
def condAt (m q s n : ℕ) : Prop :=
  lowerBound m n ≤ patternSizeAt m q s n

instance (m q s n : ℕ) : Decidable (condAt m q s n) := by
  unfold condAt; infer_instance

lemma lowerBound_eq_upperBound_succ (m n : ℕ) : lowerBound m n = upperBound m (n + 1) := by
  unfold lowerBound upperBound
  congr 2
  push_cast
  ring

lemma upperBound_anti (m : ℕ) {n nn : ℕ} (h1 : 1 ≤ n) (h : n ≤ nn) :
    upperBound m nn ≤ upperBound m n := by
  apply Int.ceil_le_ceil
  apply sub_le_sub_right
  apply div_le_div_of_nonneg_left (by positivity) (by positivity)
  have : (n : ℚ) ≤ (nn : ℚ) := by exact_mod_cast h
  linarith

lemma upperBound_mono_m {m mm : ℕ} (n : ℕ) (h1 : 1 ≤ n) (h : m ≤ mm) :
    upperBound m n ≤ upperBound mm n := by
  apply Int.ceil_le_ceil
  apply sub_le_sub_right
  apply div_le_div_of_nonneg_right _ (by positivity)
  have : (m : ℚ) ≤ (mm : ℚ) := by exact_mod_cast h
  linarith

lemma lowerBound_mono_m {m mm : ℕ} (n : ℕ) (h : m ≤ mm) :
    lowerBound m n ≤ lowerBound mm n := by
  rw [lowerBound_eq_upperBound_succ, lowerBound_eq_upperBound_succ]
  exact upperBound_mono_m (n + 1) (Nat.le_add_left 1 n) h

lemma lowerBound_le_upperBound (m : ℕ) {n : ℕ} (h1 : 1 ≤ n) :
    lowerBound m n ≤ upperBound m n := by
  rw [lowerBound_eq_upperBound_succ]
  exact upperBound_anti m h1 (Nat.le_succ n)

lemma neg_one_le_upperBound (m : ℕ) {n : ℕ} (h1 : 1 ≤ n) : -1 ≤ upperBound m n := by
  have : (-2 : ℤ) < upperBound m n := by
    rw [upperBound, Int.lt_ceil]
    push_cast
    have : (0 : ℚ) < ((m : ℚ) + 4) / (2 * n) := by positivity
    linarith
  omega

lemma neg_one_le_maxPenaltyBound {q : ℕ} (s n : ℕ) (hq : 1 ≤ q) :
    -1 ≤ maxPenaltyBound q s n := by
  have : (0 : ℤ) < ⌈((PRECISION_SCALE * s * n : ℕ) + (4 * q : ℕ) : ℚ) /
      ((2 * (n + 1) * q : ℕ) : ℚ)⌉ := by
    rw [Int.ceil_pos]
    apply div_pos
    · have : (0 : ℚ) < ((4 * q : ℕ) : ℚ) := by
        have : 0 < 4 * q := by omega
        exact_mod_cast this
      have hnum : (0 : ℚ) ≤ ((PRECISION_SCALE * s * n : ℕ) : ℚ) := by positivity
      linarith
    · have : 0 < 2 * (n + 1) * q := by positivity
      exact_mod_cast this
  unfold maxPenaltyBound
  omega

lemma maxPenaltyBound_nonpos {q s : ℕ} (n : ℕ) (hq : 1 ≤ q)
    (hAB : PRECISION_SCALE * s ≤ 4 * q) : maxPenaltyBound q s n ≤ 0 := by
  unfold maxPenaltyBound
  have h2 : ⌈((PRECISION_SCALE * s * n : ℕ) + (4 * q : ℕ) : ℚ) /
      ((2 * (n + 1) * q : ℕ) : ℚ)⌉ ≤ 2 := by
    rw [Int.ceil_le]
    have hden : (0 : ℚ) < ((2 * (n + 1) * q : ℕ) : ℚ) := by
      have : 0 < 2 * (n + 1) * q := by positivity
      exact_mod_cast this
    rw [div_le_iff₀ hden]
    have hAB' : ((PRECISION_SCALE * s : ℕ) : ℚ) ≤ ((4 * q : ℕ) : ℚ) := by exact_mod_cast hAB
    push_cast at hAB' ⊢
    nlinarith [hAB', Nat.cast_nonneg (α := ℚ) n, Nat.cast_nonneg (α := ℚ) q]
  omega

lemma maxPenaltyBound_mono {q s : ℕ} (hq : 1 ≤ q) (hBA : 4 * q ≤ PRECISION_SCALE * s)
    {n nn : ℕ} (h : n ≤ nn) : maxPenaltyBound q s n ≤ maxPenaltyBound q s nn := by
  unfold maxPenaltyBound
  apply sub_le_sub_right
  apply Int.ceil_le_ceil
  have hd1 : (0 : ℚ) < ((2 * (n + 1) * q : ℕ) : ℚ) := by
    have : 0 < 2 * (n + 1) * q := by positivity
    exact_mod_cast this
  have hd2 : (0 : ℚ) < ((2 * (nn + 1) * q : ℕ) : ℚ) := by
    have : 0 < 2 * (nn + 1) * q := by positivity
    exact_mod_cast this
  rw [div_le_div_iff₀ hd1 hd2]
  have hBA' : ((4 * q : ℕ) : ℚ) ≤ ((PRECISION_SCALE * s : ℕ) : ℚ) := by exact_mod_cast hBA
  have hn' : ((n : ℕ) : ℚ) ≤ ((nn : ℕ) : ℚ) := by exact_mod_cast h
  push_cast at hBA' hn' ⊢
  have key : (0 : ℚ) ≤ (((PRECISION_SCALE : ℕ) : ℚ) * s - 4 * q) * ((nn : ℚ) - n) * q :=
    mul_nonneg (mul_nonneg (by linarith) (by linarith)) (Nat.cast_nonneg q)
  nlinarith [key]

/-- For a positive scaled cutoff the guard says exactly that `max_penalty`
clears the lower bound (the `upper_bound` component always does). -/
lemma condAt_iff {q : ℕ} (m s : ℕ) {n : ℕ} (hq : 1 ≤ q) (h1 : 1 ≤ n) :
    condAt m q s n ↔ lowerBound m n ≤ maxPenaltyBound q s n := by
  unfold condAt patternSizeAt
  rw [if_neg (by omega : ¬ q = 0), le_min_iff]
  exact ⟨fun h => h.1, fun h => ⟨h, lowerBound_le_upperBound m h1⟩⟩

lemma condAt_of_le {m mm q s n : ℕ} (h1 : 1 ≤ n) (hm : m ≤ mm) (hc : condAt mm q s n) :
    condAt m q s n := by
  by_cases hq : q = 0
  · subst hq
    unfold condAt patternSizeAt
    rw [if_pos rfl]
    exact lowerBound_le_upperBound m h1
  · rw [condAt_iff m s (by omega) h1]
    rw [condAt_iff mm s (by omega) h1] at hc
    exact le_trans (lowerBound_mono_m n hm) hc

/-- The planner guard holds at `n = m + 2` (scaled cutoff positive) or at
`n = 1` (scaled cutoff zero): the source loop always terminates. -/
lemma condAt_exists (m q s : ℕ) : ∃ i, i ≤ m + 1 ∧ condAt m q s (1 + i) := by
  by_cases hq : q = 0
  · subst hq
    refine ⟨0, Nat.zero_le _, ?_⟩
    unfold condAt patternSizeAt
    rw [if_pos rfl]
    exact lowerBound_le_upperBound m le_rfl
  · refine ⟨m + 1, le_rfl, ?_⟩
    have h1 : 1 ≤ 1 + (m + 1) := by omega
    rw [condAt_iff m s (by omega) h1]
    have hlb : lowerBound m (1 + (m + 1)) ≤ -1 := by
      rw [lowerBound, Int.ceil_le]
      push_cast
      have hden : (0 : ℚ) < 2 * ((1 : ℚ) + ((m : ℚ) + 1)) + 2 := by positivity
      rw [sub_le_iff_le_add]
      rw [div_le_iff₀ hden]
      nlinarith [Nat.cast_nonneg (α := ℚ) m]
    exact le_trans hlb (neg_one_le_maxPenaltyBound s (1 + (m + 1)) (by omega))


/-- `loopGo` returns the candidate at the first `n` satisfying the guard,
provided enough fuel; hence it models the source's unbounded loop. -/
lemma loopGo_finds_first (m q s : ℕ) :
    ∀ (fuel n i : ℕ), i < fuel → (∀ j, j < i → ¬ condAt m q s (n + j)) →
      condAt m q s (n + i) →
      loopGo m q s fuel n = (patternSizeAt m q s (n + i)).toNat := by
  intro fuel
  induction fuel with
  | zero => intro n i hi _ _; omega
  | succ f ih =>
    intro n i hi hmin hc
    by_cases h : condAt m q s n
    · have hi0 : i = 0 := by
        by_contra hne
        exact hmin 0 (by omega) (by simpa using h)
      subst hi0
      simp only [Nat.add_zero] at hc ⊢
      unfold loopGo
      rw [if_pos (show lowerBound m n ≤ patternSizeAt m q s n from h)]
    · have hi0 : i ≠ 0 := by
        intro h0
        subst h0
        simp only [Nat.add_zero] at hc
        exact h hc
      obtain ⟨j, rfl⟩ : ∃ j, i = j + 1 := ⟨i - 1, by omega⟩
      unfold loopGo
      rw [if_neg (show ¬ lowerBound m n ≤ patternSizeAt m q s n from h)]
      have := ih (n + 1) j (by omega)
        (fun l hl => by
          have := hmin (l + 1) (by omega)
          simpa [Nat.add_assoc, Nat.add_comm 1 l] using this)
        (by simpa [Nat.add_assoc, Nat.add_comm 1 j] using hc)
      simpa [Nat.add_assoc, Nat.add_comm 1 j] using this

/-- Core monotonicity of the planner loop in the minimum aligned length. -/
lemma planner_mono (q s m1 m2 : ℕ) (h : m1 ≤ m2) :
    loopGo m1 q s (m1 + 4) 1 ≤ loopGo m2 q s (m2 + 4) 1 := by
  have hex1 : ∃ i, condAt m1 q s (1 + i) := by
    obtain ⟨i, _, hc⟩ := condAt_exists m1 q s
    exact ⟨i, hc⟩
  have hex2 : ∃ i, condAt m2 q s (1 + i) := by
    obtain ⟨i, _, hc⟩ := condAt_exists m2 q s
    exact ⟨i, hc⟩
  have hb1 : Nat.find hex1 ≤ m1 + 1 := by
    obtain ⟨i, hle, hc⟩ := condAt_exists m1 q s
    exact le_trans (Nat.find_min' hex1 hc) hle
  have hb2 : Nat.find hex2 ≤ m2 + 1 := by
    obtain ⟨i, hle, hc⟩ := condAt_exists m2 q s
    exact le_trans (Nat.find_min' hex2 hc) hle
  have hc1 : condAt m1 q s (1 + Nat.find hex1) := Nat.find_spec hex1
  have hc2 : condAt m2 q s (1 + Nat.find hex2) := Nat.find_spec hex2
  have hval1 : loopGo m1 q s (m1 + 4) 1 = (patternSizeAt m1 q s (1 + Nat.find hex1)).toNat :=
    loopGo_finds_first m1 q s (m1 + 4) 1 (Nat.find hex1) (by omega)
      (fun j hj => Nat.find_min hex1 hj) hc1
  have hval2 : loopGo m2 q s (m2 + 4) 1 = (patternSizeAt m2 q s (1 + Nat.find hex2)).toNat :=
    loopGo_finds_first m2 q s (m2 + 4) 1 (Nat.find hex2) (by omega)
      (fun j hj => Nat.find_min hex2 hj) hc2
  have hii : Nat.find hex1 ≤ Nat.find hex2 :=
    Nat.find_min' hex1 (condAt_of_le (by omega) h hc2)
  rw [hval1, hval2]
  by_cases hq : q = 0
  · subst hq
    have h10 : Nat.find hex1 = 0 := by
      rw [Nat.find_eq_zero hex1]
      unfold condAt patternSizeAt
      rw [if_pos rfl]
      exact lowerBound_le_upperBound m1 le_rfl
    have h20 : Nat.find hex2 = 0 := by
      rw [Nat.find_eq_zero hex2]
      unfold condAt patternSizeAt
      rw [if_pos rfl]
      exact lowerBound_le_upperBound m2 le_rfl
    rw [h10, h20]
    apply Int.toNat_le_toNat
    unfold patternSizeAt
    rw [if_pos rfl, if_pos rfl]
    exact upperBound_mono_m 1 le_rfl h
  · have hq1 : 1 ≤ q := by omega
    by_cases hAB : PRECISION_SCALE * s ≤ 4 * q
    · have hle : patternSizeAt m1 q s (1 + Nat.find hex1) ≤ 0 := by
        unfold patternSizeAt
        rw [if_neg hq]
        exact le_trans (min_le_left _ _) (maxPenaltyBound_nonpos _ hq1 hAB)
      rw [Int.toNat_of_nonpos hle]
      exact Nat.zero_le _
    · push_neg at hAB
      have hBA : 4 * q ≤ PRECISION_SCALE * s := le_of_lt hAB
      apply Int.toNat_le_toNat
      rcases Nat.lt_or_ge (Nat.find hex1) (Nat.find hex2) with hlt | hge
      · have hnc : ¬ condAt m2 q s (1 + (Nat.find hex2 - 1)) :=
          Nat.find_min hex2 (by omega)
        have hP : maxPenaltyBound q s (1 + (Nat.find hex2 - 1)) <
            lowerBound m2 (1 + (Nat.find hex2 - 1)) := by
          by_contra hge2
          push_neg at hge2
          exact hnc ((condAt_iff m2 s hq1 (by omega)).mpr hge2)
        have hPn : maxPenaltyBound q s (1 + Nat.find hex1) ≤
            maxPenaltyBound q s (1 + (Nat.find hex2 - 1)) :=
          maxPenaltyBound_mono hq1 hBA (by omega)
        have hLU : lowerBound m2 (1 + (Nat.find hex2 - 1)) =
            upperBound m2 (1 + Nat.find hex2) := by
          rw [lowerBound_eq_upperBound_succ]
          congr 1
          omega
        unfold patternSizeAt
        rw [if_neg hq, if_neg hq]
        apply le_min
        · exact le_trans (min_le_left _ _) (maxPenaltyBound_mono hq1 hBA (by omega))
        · have : maxPenaltyBound q s (1 + Nat.find hex1) < upperBound m2 (1 + Nat.find hex2) := by
            rw [← hLU]
            exact lt_of_le_of_lt hPn hP
          exact le_trans (min_le_left _ _) (le_of_lt this)
      · have heq : Nat.find hex1 = Nat.find hex2 := by omega
        rw [heq]
        unfold patternSizeAt
        rw [if_neg hq, if_neg hq]
        exact min_le_min le_rfl (upperBound_mono_m _ (by omega) h)

/-- C7: for fixed penalties and a fixed (scaled, gcd-reduced) maximum penalty
per length, the pattern size chosen by the planner never decreases when the
minimum aligned length increases. -/
theorem claim_C7_planner_monotonic (pens : Penalties) (q m1 m2 : ℕ) (h : m1 ≤ m2) :
    max_pattern_size_satisfying_cutoff ⟨m1, q⟩ (MinPenaltyForPattern.new pens) ≤
      max_pattern_size_satisfying_cutoff ⟨m2, q⟩ (MinPenaltyForPattern.new pens) :=
  planner_mono q _ m1 m2 h

/-- Witness for C7 at the concrete gcd-reduced penalties (2, 3, 1) and scaled
cutoff 750 (that is, penalties (4, 6, 2) and `max_ppl = 0.15`). -/
theorem claim_C7_witness :
    50 ≤ 51 ∧
      max_pattern_size_satisfying_cutoff ⟨50, 750⟩ (MinPenaltyForPattern.new ⟨2, 3, 1⟩) ≤
        max_pattern_size_satisfying_cutoff ⟨51, 750⟩ (MinPenaltyForPattern.new ⟨2, 3, 1⟩) :=
  ⟨by decide, claim_C7_planner_monotonic ⟨2, 3, 1⟩ 750 50 51 (by decide)⟩

end Sigalign

namespace Sigalign

/-! ## Data model of `anchor.rs` -/

/-- `Operation` from `io::cigar`.  Modelled from the spec: the cigar module is
not among the provided sources; the spec lists the operation kinds
(`Match | Subst | Ins | Del | RefClip | QryClip`). -/
inductive Operation where
  | Match : Operation
  | Subst : Operation
  | Ins : Operation
  | Del : Operation
  | RefClip : ℕ → Operation
  | QryClip : ℕ → Operation
deriving DecidableEq

/-- `Cigar` (a plain operation list). -/
abbrev Cigar := List Operation

/-- `AlignmentResult` as consumed by `anchor.rs`: the pattern
`ExactAlign::Own((_, len, p))` reads it as (operations, length, penalty). -/
abbrev AlignmentResult := Cigar × ℕ × ℕ

/-- `Cutoff` of `anchor.rs` (an older shape than the one in
`alignment_condition.rs`): minimum length and an `f64` score per length,
modelled as `ℚ`. -/
structure ACutoff where
  minimum_length : ℕ
  score_per_length : ℚ
deriving DecidableEq

/-- `BlockPenalty { odd, even }` (the EMP per-block penalties). -/
structure BlockPenalty where
  odd : ℕ
  even : ℕ
deriving DecidableEq

/-- `EstAlign`: the estimated (penalty, length) of one side. -/
structure EstAlign where
  penalty : ℕ
  length : ℕ
deriving DecidableEq

/-- `ExactAlign`: one-way exact alignment, either owned operations or a
reference into another anchor's operations
(`Ref(anchor_index, (reverse_index, penalty))`). -/
inductive ExactAlign where
  | Own : AlignmentResult → ExactAlign
  | Ref : ℕ → ℕ × ℕ → ExactAlign
deriving DecidableEq

/-- `ExactAlign::length_and_penalty`. -/
def ExactAlign.length_and_penalty : ExactAlign → ℕ × ℕ
  | .Own (_, len, p) => (len, p)
  | .Ref _ v => v

/-- `AlignmentState`. -/
inductive AlignmentState where
  | Preset : AlignmentState
  | Estimated : EstAlign → EstAlign → AlignmentState
  | Exact : Option ExactAlign → ExactAlign → AlignmentState
  | Dropped : AlignmentState
deriving DecidableEq

/-- The pair of checkpoint index lists `(fore, hind)`. -/
structure CheckPoints where
  fore : List ℕ
  hind : List ℕ
deriving DecidableEq

/-- `Anchor`.  `position` is `(reference position, query position)`; the
wavefront cache payload (`WaveFront`, from the absent `dwfa` module) is
abstracted to `Unit` — the live code only ever takes or clears it. -/
structure Anchor where
  position : ℕ × ℕ
  size : ℕ
  state : AlignmentState
  check_points : CheckPoints
  wf_cache : Option Unit
  connected : Finset ℕ
deriving DecidableEq

instance : Inhabited Anchor :=
  ⟨⟨(0, 0), 0, .Preset, ⟨[], []⟩, none, ∅⟩⟩

/-- `Anchor::new`. -/
def Anchor.new (ref_pos qry_pos kmer : ℕ) : Anchor :=
  ⟨(ref_pos, qry_pos), kmer, .Preset, ⟨[], []⟩, none, ∅⟩

/-- `Anchor::impeccable_extension`. -/
def Anchor.impeccable_extension (a : Anchor) (kmer : ℕ) : Anchor :=
  { a with size := a.size + kmer }

/-- `Anchor::to_dropped`. -/
def Anchor.to_dropped (a : Anchor) : Anchor :=
  { a with state := .Dropped }

/-- The odd/even alternating walk over the missing-block flags used by the EMP
estimation (`odd_block_count` / `even_block_count` / `previous_block_is_odd`). -/
def empWalk (flags : List Bool) : ℕ × ℕ :=
  let r := flags.foldl
    (fun (st : ℕ × ℕ × Bool) exist =>
      if !exist then
        if st.2.2 then (st.1, st.2.1 + 1, false)
        else (st.1 + 1, st.2.1, true)
      else (st.1, st.2.1, false))
    (0, 0, false)
  (r.1, r.2.1)

/-- `Anchor::estimate_preset` (Preset → Estimated with the fore/hind EMP). -/
def Anchor.estimate_preset (a : Anchor) (ref_len qry_len kmer : ℕ)
    (anchor_existence : List Bool) (emp_kmer : BlockPenalty) : Anchor :=
  let block_index := a.position.2 / kmer
  let fore_emp_block :=
    let block_len := min a.position.1 a.position.2
    let quot := block_len / kmer
    let flags := ((anchor_existence.drop (block_index - quot + 1)).take quot).reverse
    let counts := empWalk flags
    EstAlign.mk (counts.1 * emp_kmer.odd + counts.2 * emp_kmer.even)
      (block_len + counts.1 + counts.2)
  let hind_emp_block :=
    let hind_block_index := block_index + a.size / kmer
    let ref_block_len := ref_len - (a.position.1 + a.size)
    let qry_block_len := qry_len - (a.position.2 + a.size)
    let block_len := min ref_block_len qry_block_len
    let quot := block_len / kmer
    let flags := (anchor_existence.drop (hind_block_index + 1)).take quot
    let counts := empWalk flags
    EstAlign.mk (counts.1 * emp_kmer.odd + counts.2 * emp_kmer.even)
      (block_len + counts.1 + counts.2)
  { a with state := .Estimated fore_emp_block hind_emp_block }

/-- `Anchor::is_emp_state_valid`.  The source panics on a non-Estimated
anchor; at its single call site every anchor is Estimated, so the panic branch
is modelled by an arbitrary total value. -/
def Anchor.is_emp_state_valid (a : Anchor) (cutoff : ACutoff) : Bool :=
  match a.state with
  | .Estimated emp_block_1 emp_block_2 =>
    let length := emp_block_1.length + emp_block_2.length + a.size
    decide (length ≥ cutoff.minimum_length) &&
      decide (((emp_block_1.penalty + emp_block_2.penalty : ℕ) : ℚ) / (length : ℚ) ≤
        cutoff.score_per_length)
  | _ => false

/-- `Anchor::can_be_connected`. -/
def Anchor.can_be_connected (first second : Anchor) (penalties : Penalties)
    (cutoff : ACutoff) : Bool :=
  let ref_gap : ℤ := (second.position.1 : ℤ) - (first.position.1 : ℤ) - (first.size : ℤ)
  let qry_gap : ℤ := (second.position.2 : ℤ) - (first.position.2 : ℤ) - (first.size : ℤ)
  if 0 ≤ ref_gap ∧ 0 ≤ qry_gap then
    let pl1 : ℕ × ℕ := match first.state with
      | .Estimated emp_block _ => (emp_block.penalty, emp_block.length)
      | _ => (0, 0)
    let pl2 : ℕ × ℕ := match second.state with
      | .Estimated _ emp_block => (emp_block.penalty, emp_block.length)
      | _ => (0, 0)
    let length := pl1.2 + pl2.2 + (max ref_gap qry_gap).toNat + first.size + second.size
    let indel := (ref_gap - qry_gap).natAbs
    let penalty :=
      if 0 < indel then pl1.1 + pl2.1 + penalties.o + indel * penalties.e
      else pl1.1 + pl2.1
    decide (((penalty : ℕ) : ℚ) / (length : ℚ) ≤ cutoff.score_per_length) &&
      decide (length ≥ cutoff.minimum_length)
  else false

/-- `Anchor::both_estimated`. -/
def Anchor.both_estimated (anchor_1 anchor_2 : Anchor) : Bool :=
  (match anchor_1.state with
   | .Estimated _ _ => true
   | _ => false) &&
  (match anchor_2.state with
   | .Estimated _ _ => true
   | _ => false)

/-- `Anchor::extend_each_check_points`. -/
def extend_each_check_points (anchors : List Anchor) (first_index second_index : ℕ) :
    List Anchor :=
  let a1 := anchors.getD first_index default
  let anchors1 := anchors.set first_index
    { a1 with check_points := ⟨a1.check_points.fore, a1.check_points.hind ++ [second_index]⟩ }
  let a2 := anchors1.getD second_index default
  anchors1.set second_index
    { a2 with check_points := ⟨a2.check_points.fore ++ [first_index], a2.check_points.hind⟩ }

/-- `Anchor::create_check_points` (the double loop over index pairs
`index_1 < index_2`). -/
def create_check_points (penalties : Penalties) (cutoff : ACutoff)
    (anchors : List Anchor) : List Anchor :=
  let n := anchors.length
  (List.range n).foldl
    (fun acc index_1 =>
      (List.range n).foldl
        (fun acc2 index_2 =>
          if index_1 < index_2 ∧
              Anchor.both_estimated (acc2.getD index_1 default) (acc2.getD index_2 default) = true ∧
              Anchor.can_be_connected (acc2.getD index_1 default) (acc2.getD index_2 default)
                penalties cutoff = true
          then extend_each_check_points acc2 index_1 index_2
          else acc2)
        acc)
    anchors

/-! ## `AnchorGroup::new`: the pattern scan with impeccable extensions -/

/-- The running state of the scan of step (1) of `AnchorGroup::new`:
the flushed `anchors_preset`, the `anchors_cache` of the previous step and the
`anchor_existence` record. -/
structure BuildState where
  preset : List Anchor
  cache : Option (List Anchor)
  existence : List Bool
deriving DecidableEq

/-- One step `i` of the pattern scan of `AnchorGroup::new`. -/
def buildStep (locate : List ℕ → List ℕ) (qry_seq : List ℕ) (kmer : ℕ)
    (st : BuildState) (i : ℕ) : BuildState :=
  let pattern := (qry_seq.drop (i * kmer)).take kmer
  let positions := locate pattern
  match st.cache with
  | some anchors =>
    if positions = [] then
      ⟨st.preset ++ anchors, none, st.existence ++ [true]⟩
    else
      let scan := anchors.foldl
        (fun (acc : List Anchor × List ℕ × List Anchor) anchor =>
          match positions.find? (fun p => p == anchor.position.1 + anchor.size) with
          | some p => (acc.1, acc.2.1 ++ [p], acc.2.2 ++ [anchor.impeccable_extension kmer])
          | none => (acc.1 ++ [anchor], acc.2.1, acc.2.2))
        ([], [], [])
      let fresh := (positions.filter (fun p => !(scan.2.1.contains p))).map
        (fun p => Anchor.new p (i * kmer) kmer)
      ⟨st.preset ++ scan.1, some (scan.2.2 ++ fresh), st.existence ++ [true]⟩
  | none =>
    if positions = [] then
      ⟨st.preset, none, st.existence ++ [false]⟩
    else
      ⟨st.preset, some (positions.map (fun p => Anchor.new p (i * kmer) kmer)),
        st.existence ++ [false]⟩

/-- The scan over all `search_count` steps. -/
def buildLoop (locate : List ℕ → List ℕ) (qry_seq : List ℕ) (kmer n : ℕ) : BuildState :=
  (List.range n).foldl (buildStep locate qry_seq kmer) ⟨[], none, []⟩

/-- The scan followed by the final cache flush: yields
`(anchors_preset, anchor_existence)`. -/
def buildFinal (locate : List ℕ → List ℕ) (qry_seq : List ℕ) (kmer n : ℕ) :
    List Anchor × List Bool :=
  let st := buildLoop locate qry_seq kmer n
  match st.cache with
  | some anchors => (st.preset ++ anchors, st.existence ++ [true])
  | none => (st.preset, st.existence ++ [false])

/-- `AnchorGroup::new`.  The group's remaining fields are the borrowed inputs,
so the model returns the anchor vector itself; `none` models the source's
`return None`. -/
def AnchorGroup.new (ref_seq qry_seq : List ℕ) (locate : List ℕ → List ℕ) (kmer : ℕ)
    (block_penalty : BlockPenalty) (penalties : Penalties) (cutoff : ACutoff) :
    Option (List Anchor) :=
  if !(buildFinal locate qry_seq kmer (qry_seq.length / kmer)).2.any id then none
  else
    some (create_check_points penalties cutoff
      (((buildFinal locate qry_seq kmer (qry_seq.length / kmer)).1.map
        (fun a => a.estimate_preset ref_seq.length qry_seq.length kmer
          (buildFinal locate qry_seq kmer (qry_seq.length / kmer)).2 block_penalty)).map
        (fun a => if a.is_emp_state_valid cutoff then a else a.to_dropped)))

end Sigalign

namespace Sigalign

/-! ## Claims C3 and C6: the `anchor_existence` record and the no-seed case -/

/-- The position list the locator returns at step `i` of the scan. -/
def positionsAt (locate : List ℕ → List ℕ) (qry_seq : List ℕ) (kmer i : ℕ) : List ℕ :=
  locate ((qry_seq.drop (i * kmer)).take kmer)

lemma buildLoop_succ (locate : List ℕ → List ℕ) (qry : List ℕ) (kmer n : ℕ) :
    buildLoop locate qry kmer (n + 1) =
      buildStep locate qry kmer (buildLoop locate qry kmer n) n := by
  unfold buildLoop
  rw [List.range_succ, List.foldl_append]
  rfl

lemma buildStep_existence (locate : List ℕ → List ℕ) (qry : List ℕ) (kmer : ℕ)
    (st : BuildState) (i : ℕ) :
    (buildStep locate qry kmer st i).existence = st.existence ++ [st.cache.isSome] := by
  unfold buildStep
  cases hcache : st.cache with
  | none =>
    by_cases hp : locate ((qry.drop (i * kmer)).take kmer) = [] <;>
      simp [hp]
  | some anchors =>
    by_cases hp : locate ((qry.drop (i * kmer)).take kmer) = [] <;>
      simp [hp]

lemma buildStep_cache_isSome (locate : List ℕ → List ℕ) (qry : List ℕ) (kmer : ℕ)
    (st : BuildState) (i : ℕ) :
    (buildStep locate qry kmer st i).cache.isSome =
      decide (positionsAt locate qry kmer i ≠ []) := by
  unfold buildStep positionsAt
  cases hcache : st.cache with
  | none =>
    by_cases hp : locate ((qry.drop (i * kmer)).take kmer) = [] <;>
      simp [hp]
  | some anchors =>
    by_cases hp : locate ((qry.drop (i * kmer)).take kmer) = [] <;>
      simp [hp]

lemma scan_len_eq (positions : List ℕ) (kmer : ℕ) (anchors : List Anchor) :
    ∀ acc : List Anchor × List ℕ × List Anchor, acc.2.1.length = acc.2.2.length →
      (anchors.foldl
        (fun (acc : List Anchor × List ℕ × List Anchor) anchor =>
          match positions.find? (fun p => p == anchor.position.1 + anchor.size) with
          | some p => (acc.1, acc.2.1 ++ [p], acc.2.2 ++ [anchor.impeccable_extension kmer])
          | none => (acc.1 ++ [anchor], acc.2.1, acc.2.2))
        acc).2.1.length =
      (anchors.foldl
        (fun (acc : List Anchor × List ℕ × List Anchor) anchor =>
          match positions.find? (fun p => p == anchor.position.1 + anchor.size) with
          | some p => (acc.1, acc.2.1 ++ [p], acc.2.2 ++ [anchor.impeccable_extension kmer])
          | none => (acc.1 ++ [anchor], acc.2.1, acc.2.2))
        acc).2.2.length := by
  induction anchors with
  | nil => intro acc h; simpa using h
  | cons a t ih =>
    intro acc h
    simp only [List.foldl_cons]
    cases hf : positions.find? (fun p => p == a.position.1 + a.size) with
    | none => exact ih _ (by simpa using h)
    | some p =>
      apply ih
      simp [h]

lemma buildStep_cache_ne_nil (locate : List ℕ → List ℕ) (qry : List ℕ) (kmer : ℕ)
    (st : BuildState) (i : ℕ) :
    ∀ l, (buildStep locate qry kmer st i).cache = some l → l ≠ [] := by
  intro l hl
  unfold buildStep at hl
  cases hcache : st.cache with
  | none =>
    rw [hcache] at hl
    by_cases hp : locate ((qry.drop (i * kmer)).take kmer) = []
    · simp [hp] at hl
    · simp only [if_neg hp] at hl
      obtain ⟨rfl⟩ : (locate ((qry.drop (i * kmer)).take kmer)).map
          (fun p => Anchor.new p (i * kmer) kmer) = l := by
        simpa using hl
      simpa using hp
  | some anchors =>
    rw [hcache] at hl
    by_cases hp : locate ((qry.drop (i * kmer)).take kmer) = []
    · simp [hp] at hl
    · simp only [if_neg hp] at hl
      simp only [Option.some.injEq] at hl
      intro hnil
      rw [← hl] at hnil
      rcases List.append_eq_nil.mp hnil with ⟨h1, h2⟩
      have hlen := scan_len_eq (locate ((qry.drop (i * kmer)).take kmer)) kmer anchors
        ([], [], []) rfl
      rw [h1] at hlen
      simp only [List.length_nil] at hlen
      have hie : (anchors.foldl
          (fun (acc : List Anchor × List ℕ × List Anchor) anchor =>
            match (locate ((qry.drop (i * kmer)).take kmer)).find?
                (fun p => p == anchor.position.1 + anchor.size) with
            | some p => (acc.1, acc.2.1 ++ [p], acc.2.2 ++ [anchor.impeccable_extension kmer])
            | none => (acc.1 ++ [anchor], acc.2.1, acc.2.2))
          ([], [], [])).2.1 = [] := List.eq_nil_of_length_eq_zero hlen
      rw [hie] at h2
      simp only [List.contains_nil, Bool.not_false, List.filter_true] at h2
      rw [List.map_eq_nil_iff] at h2
      exact hp h2

lemma buildStep_preset_prefix (locate : List ℕ → List ℕ) (qry : List ℕ) (kmer : ℕ)
    (st : BuildState) (i : ℕ) :
    ∃ t, (buildStep locate qry kmer st i).preset = st.preset ++ t := by
  unfold buildStep
  cases hcache : st.cache with
  | none =>
    by_cases hp : locate ((qry.drop (i * kmer)).take kmer) = [] <;>
      simp [hp]
  | some anchors =>
    by_cases hp : locate ((qry.drop (i * kmer)).take kmer) = []
    · exact ⟨anchors, by simp [hp]⟩
    · simp only [if_neg hp]
      exact ⟨_, rfl⟩

lemma buildStep_none_empty (locate : List ℕ → List ℕ) (qry : List ℕ) (kmer : ℕ)
    (st : BuildState) (i : ℕ) (h1 : st.cache = none)
    (hp : positionsAt locate qry kmer i = []) :
    (buildStep locate qry kmer st i).preset = st.preset ∧
      (buildStep locate qry kmer st i).cache = none := by
  unfold buildStep
  rw [h1]
  unfold positionsAt at hp
  simp [hp]

lemma buildStep_nonempty_pres (locate : List ℕ → List ℕ) (qry : List ℕ) (kmer : ℕ)
    (st : BuildState) (i : ℕ)
    (hc : ∀ l, st.cache = some l → l ≠ [])
    (h : ¬(st.preset = [] ∧ st.cache = none)) :
    ¬((buildStep locate qry kmer st i).preset = [] ∧
      (buildStep locate qry kmer st i).cache = none) := by
  by_cases hpre : st.preset = []
  · cases hcache : st.cache with
    | none => exact absurd ⟨hpre, hcache⟩ h
    | some l =>
      have hl : l ≠ [] := hc l hcache
      rintro ⟨hp1, hp2⟩
      by_cases hp : locate ((qry.drop (i * kmer)).take kmer) = []
      · have : (buildStep locate qry kmer st i).preset = st.preset ++ l := by
          unfold buildStep
          rw [hcache]
          simp [hp]
        rw [this, hpre] at hp1
        simp only [List.nil_append] at hp1
        exact hl hp1
      · have : (buildStep locate qry kmer st i).cache.isSome = true := by
          rw [buildStep_cache_isSome]
          simpa [positionsAt] using hp
        rw [hp2] at this
        simp at this
  · rintro ⟨hp1, _⟩
    obtain ⟨t, ht⟩ := buildStep_preset_prefix locate qry kmer st i
    rw [ht] at hp1
    rcases List.append_eq_nil.mp hp1 with ⟨h1, _⟩
    exact hpre h1

lemma buildLoop_cache_ne_nil (locate : List ℕ → List ℕ) (qry : List ℕ) (kmer n : ℕ) :
    ∀ l, (buildLoop locate qry kmer n).cache = some l → l ≠ [] := by
  cases n with
  | zero => intro l h; simp [buildLoop] at h
  | succ m =>
    rw [buildLoop_succ]
    exact buildStep_cache_ne_nil locate qry kmer _ m

lemma buildLoop_cache_isSome (locate : List ℕ → List ℕ) (qry : List ℕ) (kmer n : ℕ) :
    (buildLoop locate qry kmer n).cache.isSome =
      decide (0 < n ∧ positionsAt locate qry kmer (n - 1) ≠ []) := by
  cases n with
  | zero => simp [buildLoop]
  | succ m =>
    rw [buildLoop_succ, buildStep_cache_isSome]
    simp

lemma buildLoop_existence (locate : List ℕ → List ℕ) (qry : List ℕ) (kmer n : ℕ) :
    (buildLoop locate qry kmer n).existence =
      (List.range n).map
        (fun i => decide (0 < i ∧ positionsAt locate qry kmer (i - 1) ≠ [])) := by
  induction n with
  | zero => simp [buildLoop]
  | succ m ih =>
    rw [buildLoop_succ, buildStep_existence, ih, buildLoop_cache_isSome,
      List.range_succ, List.map_append]
    simp

lemma buildLoop_empty_iff (locate : List ℕ → List ℕ) (qry : List ℕ) (kmer n : ℕ) :
    ((buildLoop locate qry kmer n).preset = [] ∧ (buildLoop locate qry kmer n).cache = none) ↔
      ∀ i, i < n → positionsAt locate qry kmer i = [] := by
  induction n with
  | zero =>
    constructor
    · intro _ i hi; omega
    · intro _; exact ⟨rfl, rfl⟩
  | succ m ih =>
    rw [buildLoop_succ]
    constructor
    · intro hafter
      have hst : (buildLoop locate qry kmer m).preset = [] ∧
          (buildLoop locate qry kmer m).cache = none := by
        by_contra hne
        exact buildStep_nonempty_pres locate qry kmer _ m
          (buildLoop_cache_ne_nil locate qry kmer m) hne hafter
      intro i hi
      rcases Nat.lt_succ_iff_lt_or_eq.mp hi with hlt | heq
      · exact ih.mp hst i hlt
      · subst heq
        by_contra hp
        have hsome : (buildStep locate qry kmer (buildLoop locate qry kmer i) i).cache.isSome
            = true := by
          rw [buildStep_cache_isSome]
          simpa using hp
        rw [hafter.2] at hsome
        simp at hsome
    · intro hall
      have hst : (buildLoop locate qry kmer m).preset = [] ∧
          (buildLoop locate qry kmer m).cache = none :=
        ih.mpr (fun i hi => hall i (by omega))
      obtain ⟨he1, he2⟩ := buildStep_none_empty locate qry kmer _ m hst.2
        (hall m (by omega))
      rw [he1, he2, hst.1]
      exact ⟨rfl, rfl⟩

lemma shift_map (P : ℕ → Prop) [DecidablePred P] : ∀ n : ℕ,
    (List.range n).map (fun i => decide (0 < i ∧ P (i - 1))) ++ [decide (0 < n ∧ P (n - 1))] =
      false :: (List.range n).map (fun i => decide (P i)) := by
  intro n
  induction n with
  | zero => simp
  | succ m ih =>
    rw [List.range_succ, List.map_append, List.map_append]
    have h1 : (List.map (fun i => decide (0 < i ∧ P (i - 1))) [m]) =
        [decide (0 < m ∧ P (m - 1))] := by simp
    rw [h1, List.append_assoc]
    have h2 : [decide (0 < m ∧ P (m - 1))] ++ [decide (0 < m + 1 ∧ P (m + 1 - 1))] =
        [decide (0 < m ∧ P (m - 1))] ++ [decide (P m)] := by simp
    rw [h2, ← List.append_assoc, ih]
    simp

lemma buildFinal_existence (locate : List ℕ → List ℕ) (qry : List ℕ) (kmer n : ℕ) :
    (buildFinal locate qry kmer n).2 =
      false :: (List.range n).map (fun i => decide (positionsAt locate qry kmer i ≠ [])) := by
  have hshift := shift_map (fun i => positionsAt locate qry kmer i ≠ []) n
  have hsome := buildLoop_cache_isSome locate qry kmer n
  have hex := buildLoop_existence locate qry kmer n
  unfold buildFinal
  cases hb : buildLoop locate qry kmer n with
  | mk pre cacheo ex =>
    rw [hb] at hsome hex
    simp only at hsome hex ⊢
    cases cacheo with
    | none =>
      simp only [Option.isSome_none] at hsome
      simp only [hex, ← hshift, ← hsome]
    | some l =>
      simp only [Option.isSome_some] at hsome
      simp only [hex, ← hshift, ← hsome]

lemma buildFinal_fst_eq_nil_iff (locate : List ℕ → List ℕ) (qry : List ℕ) (kmer n : ℕ) :
    ((buildFinal locate qry kmer n).1 = []) ↔
      ∀ i, i < n → positionsAt locate qry kmer i = [] := by
  have hemp := buildLoop_empty_iff locate qry kmer n
  have hnil := buildLoop_cache_ne_nil locate qry kmer n
  unfold buildFinal
  cases hb : buildLoop locate qry kmer n with
  | mk pre cacheo ex =>
    rw [hb] at hemp hnil
    simp only at hemp hnil ⊢
    cases cacheo with
    | none => simpa using hemp
    | some l =>
      have hl : l ≠ [] := hnil l rfl
      constructor
      · intro h
        rcases List.append_eq_nil.mp h with ⟨_, h2⟩
        exact absurd h2 hl
      · intro hall
        have := hemp.mpr hall
        simp at this

lemma buildFinal_any_iff (locate : List ℕ → List ℕ) (qry : List ℕ) (kmer n : ℕ) :
    ((buildFinal locate qry kmer n).2.any id = true) ↔
      ∃ i, i < n ∧ positionsAt locate qry kmer i ≠ [] := by
  rw [buildFinal_existence]
  constructor
  · intro h
    simp only [List.any_cons, id_eq, Bool.false_or, List.any_eq_true] at h
    obtain ⟨b, hb, hbt⟩ := h
    rw [List.mem_map] at hb
    obtain ⟨i, hi, rfl⟩ := hb
    rw [List.mem_range] at hi
    rw [decide_eq_true_eq] at hbt
    exact ⟨i, hi, hbt⟩
  · rintro ⟨i, hi, hp⟩
    simp only [List.any_cons, id_eq, Bool.false_or, List.any_eq_true]
    exact ⟨decide (positionsAt locate qry kmer i ≠ []),
      List.mem_map_of_mem _ (List.mem_range.mpr hi), by simpa using hp⟩

lemma foldl_length_pres {α : Type} (f : List Anchor → α → List Anchor)
    (hf : ∀ acc a, (f acc a).length = acc.length) :
    ∀ (L : List α) (acc : List Anchor), (L.foldl f acc).length = acc.length := by
  intro L
  induction L with
  | nil => intro acc; rfl
  | cons a t ih => intro acc; rw [List.foldl_cons, ih, hf]

lemma extend_each_check_points_length (l : List Anchor) (i j : ℕ) :
    (extend_each_check_points l i j).length = l.length := by
  unfold extend_each_check_points
  simp

lemma create_check_points_length (p : Penalties) (c : ACutoff) (l : List Anchor) :
    (create_check_points p c l).length = l.length := by
  unfold create_check_points
  apply foldl_length_pres
  intro acc i1
  apply foldl_length_pres
  intro acc2 i2
  split
  · exact extend_each_check_points_length acc2 i1 i2
  · rfl

/-- C6: `AnchorGroup::new` returns `None` exactly when the locator returns an
empty position list for every length-`k` window of the query; and whenever
some window has a match, construction succeeds with a non-empty anchor set. -/
theorem claim_C6_no_seed_none_iff (ref_seq qry_seq : List ℕ) (locate : List ℕ → List ℕ)
    (kmer : ℕ) (bp : BlockPenalty) (pens : Penalties) (cutoff : ACutoff) :
    (AnchorGroup.new ref_seq qry_seq locate kmer bp pens cutoff = none ↔
      ∀ i, i < qry_seq.length / kmer → positionsAt locate qry_seq kmer i = []) ∧
    ((∃ i, i < qry_seq.length / kmer ∧ positionsAt locate qry_seq kmer i ≠ []) →
      ∃ anchors, AnchorGroup.new ref_seq qry_seq locate kmer bp pens cutoff = some anchors ∧
        anchors ≠ []) := by
  constructor
  · unfold AnchorGroup.new
    by_cases hany : (buildFinal locate qry_seq kmer (qry_seq.length / kmer)).2.any id = true
    · simp only [hany, Bool.not_true, if_neg (by simp : ¬ (false = true))]
      constructor
      · intro h; simp at h
      · intro hall
        obtain ⟨i, hi, hp⟩ := (buildFinal_any_iff locate qry_seq kmer _).mp hany
        exact absurd (hall i hi) hp
    · have hfalse : (buildFinal locate qry_seq kmer (qry_seq.length / kmer)).2.any id
          = false := by
        cases h : (buildFinal locate qry_seq kmer (qry_seq.length / kmer)).2.any id
        · rfl
        · exact absurd h hany
      simp only [hfalse, Bool.not_false, if_pos rfl]
      constructor
      · intro _
        intro i hi
        by_contra hp
        exact hany ((buildFinal_any_iff locate qry_seq kmer _).mpr ⟨i, hi, hp⟩)
      · intro _; rfl
  · intro hex
    have hany : (buildFinal locate qry_seq kmer (qry_seq.length / kmer)).2.any id = true :=
      (buildFinal_any_iff locate qry_seq kmer _).mpr hex
    unfold AnchorGroup.new
    simp only [hany, Bool.not_true, if_neg (by simp : ¬ (false = true))]
    refine ⟨_, rfl, ?_⟩
    intro hnil
    have hlen := congrArg List.length hnil
    rw [create_check_points_length, List.length_map, List.length_map] at hlen
    simp only [List.length_nil] at hlen
    obtain ⟨i, hi, hp⟩ := hex
    have hne : (buildFinal locate qry_seq kmer (qry_seq.length / kmer)).1 ≠ [] := by
      intro h
      exact hp ((buildFinal_fst_eq_nil_iff locate qry_seq kmer _).mp h i hi)
    exact hne (List.eq_nil_of_length_eq_zero hlen)

/-- Witness for C6: one query window, and the locator reports a match at
reference position 0; construction returns a non-empty anchor set. -/
theorem claim_C6_witness :
    ∃ anchors,
      AnchorGroup.new [0] [0] (fun _ => [0]) 1 ⟨1, 1⟩ ⟨4, 6, 2⟩ ⟨1, 1 / 2⟩ = some anchors ∧
        anchors ≠ [] :=
  (claim_C6_no_seed_none_iff [0] [0] (fun _ => [0]) 1 ⟨1, 1⟩ ⟨4, 6, 2⟩ ⟨1, 1 / 2⟩).2
    ⟨0, by decide, by decide⟩

/-- C3 (amended): `anchor_existence` is offset by one step — its first entry
is a `false` buffer, and for every scan step `i` the entry at index `i + 1`
records whether any anchor was produced or carried at step `i` (that is,
whether the anchor cache is non-empty after step `i`). -/
theorem claim_C3_amended_existence_offset (locate : List ℕ → List ℕ) (qry_seq : List ℕ)
    (kmer n : ℕ) :
    (buildFinal locate qry_seq kmer n).2 =
      false :: (List.range n).map
        (fun i => (buildLoop locate qry_seq kmer (i + 1)).cache.isSome) := by
  rw [buildFinal_existence]
  congr 1
  apply List.map_congr_left
  intro i _
  rw [buildLoop_cache_isSome]
  simp

/-- Counterexample for C3 as stated: with a one-window query whose pattern the
locator finds (so an anchor is produced at step 0), `anchor_existence[0]` is
`false`, not `true`. -/
theorem claim_C3_counterexample :
    ¬ ((buildFinal (fun _ => [0]) [0] 1 1).2.getD 0 false =
        (buildLoop (fun _ => [0]) [0] 1 1).cache.isSome) := by
  decide

end Sigalign

namespace Sigalign

/-! ## The alignment driver (`AnchorGroup::alignment` / `Anchor::alignment`)

The drop-out extender `dropout_wf_align` together with the backtrace
`dropout_wf_backtrace` (module `dwfa`, absent from the sources) is abstracted
by an oracle.  Modelled from the spec: a call either drops out, or succeeds
with an alignment result, its score, and the map of crossed checkpoints —
§4.4 returns that map keyed by the checkpoints the caller supplied, so the
driver keeps only crossed entries from the current anchor's checkpoint list.
The fore pass hands the extender the reversed sequences; their lengths and the
anchor fields are all the driver itself reads, so the reversal is absorbed
into the oracle. -/

/-- `BlockType`. -/
inductive BlockType where
  | Hind : BlockType
  | Fore : BlockType
deriving DecidableEq

/-- The outcome of one `dropout_wf_align` + `dropout_wf_backtrace` round:
drop-out, or success carrying the alignment result, the reached score, and the
crossed checkpoints as `(anchor index, reverse index, penalty at crossing)`. -/
inductive DwfaRes where
  | dropped : DwfaRes
  | success : AlignmentResult → ℕ → List (ℕ × ℕ × ℕ) → DwfaRes

/-- The extender oracle: anchor index, block type and the `penalty_spare`
budget passed by the driver. -/
def Oracle := ℕ → BlockType → ℕ → DwfaRes

/-- The `penalty_spare` computed by `Anchor::alignment` for a hind extension.
Note the source binds `(l_other, p_other)` to `(est.penalty, est.length)`
— penalty and length swapped — and this definition reproduces that binding. -/
def hind_penalty_spare (cutoff : ACutoff) (ref_len qry_len : ℕ) (a : Anchor)
    (est : EstAlign) : ℕ :=
  let l_other := est.penalty
  let p_other := est.length
  (⌊cutoff.score_per_length *
      (((min (ref_len - a.position.1 - a.size) (qry_len - a.position.2 - a.size)) +
        a.size + l_other : ℕ) : ℚ) - (p_other : ℚ)⌋).toNat

/-- The `penalty_spare` computed by `Anchor::alignment` for a fore extension;
here `(l_other, p_other)` is `hind.length_and_penalty()` (length first). -/
def fore_penalty_spare (cutoff : ACutoff) (a : Anchor) (lp : ℕ × ℕ) : ℕ :=
  let l_other := lp.1
  let p_other := lp.2
  (⌊cutoff.score_per_length *
      (((min a.position.1 a.position.2) + a.size + l_other : ℕ) : ℚ) -
    (p_other : ℚ)⌋).toNat

/-- Index-aware map over the anchor vector; models the per-key updates of the
crossed-checkpoint `HashMap` (whose keys are unique, so per-index application
is order-independent). -/
def mapWithIndex (f : ℕ → Anchor → Anchor) : ℕ → List Anchor → List Anchor
  | _, [] => []
  | n, a :: t => f n a :: mapWithIndex f (n + 1) t

/-- First crossed entry for anchor `j`: `(reverse_index, penalty)`. -/
def lookupCrossed (crossed : List (ℕ × ℕ × ℕ)) (j : ℕ) : Option (ℕ × ℕ) :=
  (crossed.find? (fun e => e.1 == j)).map (fun e => e.2)

/-- The update a hind-side success applies to a crossed anchor `j`
(the body of the `connected_backtraces` loop, `BlockType::Hind` arm). -/
def crossed_update_hind (i score : ℕ) (crossedF : List (ℕ × ℕ × ℕ)) (keys : List ℕ)
    (j : ℕ) (b : Anchor) : Anchor :=
  match lookupCrossed crossedF j with
  | some rp =>
    { b with
      state := .Exact none (.Ref i (rp.1, score - rp.2)),
      connected := b.connected ∪
        (b.check_points.hind.filter (fun cp => keys.contains cp)).toFinset,
      wf_cache := none }
  | none => b

/-- The update a fore-side success applies to a crossed anchor `j`
(the `BlockType::Fore` arm: the state write is guarded by `if let Exact`). -/
def crossed_update_fore (i score : ℕ) (crossedF : List (ℕ × ℕ × ℕ)) (keys : List ℕ)
    (j : ℕ) (b : Anchor) : Anchor :=
  match lookupCrossed crossedF j with
  | some rp =>
    let b1 := match b.state with
      | .Exact _ bhind =>
        { b with state := .Exact (some (.Ref i (rp.1, score - rp.2))) bhind }
      | _ => b
    { b1 with
      connected := b1.connected ∪
        (b1.check_points.fore.filter (fun cp => keys.contains cp)).toFinset,
      wf_cache := none }
  | none => b

/-- The whole anchor-vector update of a successful hind extension of anchor
`i`: the current anchor takes `Own` of the (reversed) operations and unions
the crossed keys into `connected`; every crossed anchor is rewritten by
`crossed_update_hind`. -/
def hind_success_update (i : ℕ) (a : Anchor) (res : AlignmentResult) (score : ℕ)
    (crossed : List (ℕ × ℕ × ℕ)) (anchors : List Anchor) : List Anchor :=
  mapWithIndex
    (crossed_update_hind i score
      (crossed.filter (fun e => a.check_points.hind.contains e.1))
      ((crossed.filter (fun e => a.check_points.hind.contains e.1)).map (fun e => e.1)))
    0
    (anchors.set i
      { a with
        wf_cache := none,
        state := .Exact none (.Own (res.1.reverse, res.2.1, res.2.2)),
        connected := a.connected ∪
          ((crossed.filter (fun e => a.check_points.hind.contains e.1)).map
            (fun e => e.1)).toFinset })

/-- The whole anchor-vector update of a successful fore extension of anchor
`i` (operations are not reversed on this side). -/
def fore_success_update (i : ℕ) (a : Anchor) (hind : ExactAlign) (res : AlignmentResult)
    (score : ℕ) (crossed : List (ℕ × ℕ × ℕ)) (anchors : List Anchor) : List Anchor :=
  mapWithIndex
    (crossed_update_fore i score
      (crossed.filter (fun e => a.check_points.fore.contains e.1))
      ((crossed.filter (fun e => a.check_points.fore.contains e.1)).map (fun e => e.1)))
    0
    (anchors.set i
      { a with
        wf_cache := none,
        state := .Exact (some (.Own res)) hind,
        connected := a.connected ∪
          ((crossed.filter (fun e => a.check_points.fore.contains e.1)).map
            (fun e => e.1)).toFinset })

/-- One hind-side `Anchor::alignment` call on anchor `i`. -/
def hind_alignment_step (ora : Oracle) (cutoff : ACutoff) (ref_len qry_len : ℕ)
    (anchors : List Anchor) (i : ℕ) : List Anchor :=
  match (anchors.getD i default).state with
  | .Estimated est _ =>
    match ora i .Hind (hind_penalty_spare cutoff ref_len qry_len (anchors.getD i default) est) with
    | .dropped =>
      anchors.set i ({ anchors.getD i default with wf_cache := none }).to_dropped
    | .success res score crossed =>
      hind_success_update i (anchors.getD i default) res score crossed anchors
  | _ => anchors

/-- One fore-side `Anchor::alignment` call on anchor `i` (sequences reversed
by the caller; only their lengths reach the driver). -/
def fore_alignment_step (ora : Oracle) (cutoff : ACutoff) (_ref_len _qry_len : ℕ)
    (anchors : List Anchor) (i : ℕ) : List Anchor :=
  match (anchors.getD i default).state with
  | .Exact none hind =>
    match ora i .Fore (fore_penalty_spare cutoff (anchors.getD i default)
        hind.length_and_penalty) with
    | .dropped =>
      anchors.set i ({ anchors.getD i default with wf_cache := none }).to_dropped
    | .success res score crossed =>
      fore_success_update i (anchors.getD i default) hind res score crossed anchors
  | _ => anchors

/-- `Anchor::get_penalty_and_length`, as `(penalty, length)`.  The source
`unwrap`s the fore side of an `Exact` anchor; the panicking case is `none`. -/
def get_penalty_and_length (a : Anchor) : Option (ℕ × ℕ) :=
  match a.state with
  | .Exact fore_option hind =>
    match fore_option with
    | some fore =>
      let lp1 := fore.length_and_penalty
      let lp2 := hind.length_and_penalty
      some (lp1.2 + lp2.2, lp1.1 + lp2.1 + a.size)
    | none => none
  | _ => some (0, a.size)

/-- `Anchor::evaluate_exact_alignment`. -/
def evaluate_exact_alignment (penalty length : ℕ) (cutoff : ACutoff) : Bool :=
  decide (length ≥ cutoff.minimum_length) &&
    decide ((penalty : ℚ) / (length : ℚ) ≤ cutoff.score_per_length)

/-- The state effect of the evaluation loop of `AnchorGroup::get_result`
(both modes drop exactly the anchors failing `evaluate_exact_alignment`). -/
def eval_pass (cutoff : ACutoff) (anchors : List Anchor) : List Anchor :=
  anchors.map fun a =>
    match get_penalty_and_length a with
    | some pl => if evaluate_exact_alignment pl.1 pl.2 cutoff then a else a.to_dropped
    | none => a

/-- Step `t` of one whole alignment call on `n` anchors: hind pass ascending
(`t < n`), fore pass descending (`n ≤ t < 2n`), then the result evaluation. -/
def alignment_step (ora : Oracle) (cutoff : ACutoff) (ref_len qry_len n : ℕ)
    (anchors : List Anchor) (t : ℕ) : List Anchor :=
  if t < n then hind_alignment_step ora cutoff ref_len qry_len anchors t
  else if t < 2 * n then
    fore_alignment_step ora cutoff ref_len qry_len anchors (2 * n - 1 - t)
  else if t = 2 * n then eval_pass cutoff anchors
  else anchors

/-- The anchor vector after the first `t` steps of the alignment call. -/
def anchors_after (ora : Oracle) (cutoff : ACutoff) (ref_len qry_len : ℕ)
    (anchors0 : List Anchor) : ℕ → List Anchor
  | 0 => anchors0
  | t + 1 => alignment_step ora cutoff ref_len qry_len anchors0.length
      (anchors_after ora cutoff ref_len qry_len anchors0 t) t

/-- Anchor `j` is in the `Dropped` state. -/
def dropped_at (anchors : List Anchor) (j : ℕ) : Prop :=
  (anchors.getD j default).state = .Dropped

instance (anchors : List Anchor) (j : ℕ) : Decidable (dropped_at anchors j) := by
  unfold dropped_at; infer_instance

end Sigalign

namespace Sigalign

/-! ## Claim C1: the penalty-spare budget -/

/-- The budget formula claimed by the spec:
`floor(max_ppl · (remaining + size + l_other) − p_other)` with `l_other` the
estimated length and `p_other` the estimated penalty of the other side. -/
def claimed_penalty_spare (cutoff : ACutoff) (remaining size l_other p_other : ℕ) : ℤ :=
  ⌊cutoff.score_per_length * ((remaining + size + l_other : ℕ) : ℚ) - (p_other : ℚ)⌋

/-- C1 evaluated at the failing input: an anchor of size 10 at the origin,
fore estimate penalty 2 / length 10, remaining `min(20, 25) = 20`,
`max_ppl = 1/10`.  The hind-side budget passed by the driver is 0 — the source
binds `(l_other, p_other) = (est.penalty, est.length)`, swapped — while the
claimed formula gives 2; the fore side (which binds length first) matches the
claimed formula at the mirrored input. -/
theorem claim_C1_hind_spare_swapped :
    hind_penalty_spare ⟨50, 1 / 10⟩ 30 35
        ⟨(0, 0), 10, .Estimated ⟨2, 10⟩ ⟨0, 0⟩, ⟨[], []⟩, none, ∅⟩ ⟨2, 10⟩ = 0 ∧
    claimed_penalty_spare ⟨50, 1 / 10⟩ 20 10 10 2 = 2 ∧
    fore_penalty_spare ⟨50, 1 / 10⟩ ⟨(20, 25), 10, .Preset, ⟨[], []⟩, none, ∅⟩ (10, 2) = 2 := by
  refine ⟨?_, ?_, ?_⟩
  · unfold hind_penalty_spare
    norm_num
  · unfold claimed_penalty_spare
    norm_num
  · unfold fore_penalty_spare
    norm_num
    rfl

/-! ## List helper lemmas for the driver proofs -/

lemma mapWithIndex_length (f : ℕ → Anchor → Anchor) :
    ∀ (n : ℕ) (l : List Anchor), (mapWithIndex f n l).length = l.length := by
  intro n l
  induction l generalizing n with
  | nil => rfl
  | cons a t ih => simp [mapWithIndex, ih]

lemma mapWithIndex_getD (f : ℕ → Anchor → Anchor) :
    ∀ (l : List Anchor) (n j : ℕ), j < l.length →
      (mapWithIndex f n l).getD j default = f (n + j) (l.getD j default) := by
  intro l
  induction l with
  | nil => intro n j h; simp at h
  | cons a t ih =>
    intro n j h
    cases j with
    | zero => simp [mapWithIndex]
    | succ k =>
      have := ih (n + 1) k (by simpa using h)
      simp only [mapWithIndex, List.getD_cons_succ]
      rw [this]
      congr 1
      omega

lemma getD_eq_default_of_le {α : Type} (d : α) :
    ∀ (l : List α) (j : ℕ), l.length ≤ j → l.getD j d = d := by
  intro l
  induction l with
  | nil => intro j _; simp
  | cons a t ih =>
    intro j h
    cases j with
    | zero => simp at h
    | succ k => simpa using ih k (by simpa using h)

lemma getD_set_self {α : Type} (d : α) :
    ∀ (l : List α) (i : ℕ) (a : α), i < l.length → (l.set i a).getD i d = a := by
  intro l
  induction l with
  | nil => intro i a h; simp at h
  | cons x t ih =>
    intro i a h
    cases i with
    | zero => rfl
    | succ k => simpa using ih k a (by simpa using h)

lemma getD_set_of_ne {α : Type} (d : α) :
    ∀ (l : List α) (i j : ℕ) (a : α), i ≠ j → (l.set i a).getD j d = l.getD j d := by
  intro l
  induction l with
  | nil => intro i j a _; simp
  | cons x t ih =>
    intro i j a hne
    cases i with
    | zero =>
      cases j with
      | zero => exact absurd rfl hne
      | succ k => simp
    | succ ii =>
      cases j with
      | zero => simp
      | succ k => simpa using ih ii k a (by omega)

lemma lookupCrossed_mem_keys (crossedF : List (ℕ × ℕ × ℕ)) (j : ℕ) (rp : ℕ × ℕ)
    (h : lookupCrossed crossedF j = some rp) :
    j ∈ crossedF.map (fun e => e.1) := by
  unfold lookupCrossed at h
  cases hf : crossedF.find? (fun e => e.1 == j) with
  | none => rw [hf] at h; simp at h
  | some e =>
    have hmem := List.mem_of_find?_eq_some hf
    have hpred := List.find?_some hf
    have : e.1 = j := by simpa using hpred
    rw [← this]
    exact List.mem_map_of_mem _ hmem

lemma crossedF_mem_cp (crossed : List (ℕ × ℕ × ℕ)) (cps : List ℕ) (j : ℕ)
    (h : j ∈ (crossed.filter (fun e => cps.contains e.1)).map (fun e => e.1)) :
    j ∈ cps := by
  rw [List.mem_map] at h
  obtain ⟨e, hmem, rfl⟩ := h
  rw [List.mem_filter] at hmem
  simpa using hmem.2

end Sigalign

namespace Sigalign

/-! ## Step-level facts about the driver -/

lemma getD_map_anchor (f : Anchor → Anchor) :
    ∀ (l : List Anchor) (j : ℕ), j < l.length →
      (l.map f).getD j default = f (l.getD j default) := by
  intro l
  induction l with
  | nil => intro j h; simp at h
  | cons a t ih =>
    intro j h
    cases j with
    | zero => rfl
    | succ k => simpa using ih k (by simpa using h)

lemma crossed_update_hind_cp (i score : ℕ) (crossedF : List (ℕ × ℕ × ℕ)) (keys : List ℕ)
    (j : ℕ) (b : Anchor) :
    (crossed_update_hind i score crossedF keys j b).check_points = b.check_points := by
  unfold crossed_update_hind
  cases lookupCrossed crossedF j <;> rfl

lemma crossed_update_fore_cp (i score : ℕ) (crossedF : List (ℕ × ℕ × ℕ)) (keys : List ℕ)
    (j : ℕ) (b : Anchor) :
    (crossed_update_fore i score crossedF keys j b).check_points = b.check_points := by
  unfold crossed_update_fore
  cases lookupCrossed crossedF j with
  | none => rfl
  | some rp => cases b.state <;> rfl

lemma crossed_update_hind_of_none {crossedF : List (ℕ × ℕ × ℕ)} {j : ℕ}
    (i score : ℕ) (keys : List ℕ) (b : Anchor) (h : lookupCrossed crossedF j = none) :
    crossed_update_hind i score crossedF keys j b = b := by
  unfold crossed_update_hind
  rw [h]

lemma crossed_update_hind_state_of_some {crossedF : List (ℕ × ℕ × ℕ)} {j : ℕ}
    {rp : ℕ × ℕ} (i score : ℕ) (keys : List ℕ) (b : Anchor)
    (h : lookupCrossed crossedF j = some rp) :
    (crossed_update_hind i score crossedF keys j b).state =
      .Exact none (.Ref i (rp.1, score - rp.2)) := by
  unfold crossed_update_hind
  rw [h]

lemma crossed_update_fore_dropped (i score : ℕ) (crossedF : List (ℕ × ℕ × ℕ))
    (keys : List ℕ) (j : ℕ) (b : Anchor) (h : b.state = .Dropped) :
    (crossed_update_fore i score crossedF keys j b).state = .Dropped := by
  unfold crossed_update_fore
  cases lookupCrossed crossedF j with
  | none => exact h
  | some rp =>
    rw [h]
    exact h

/-- Whether an anchor can never hit the fore-side `unwrap`: if its state is
`Exact`, the fore side is populated. -/
def fore_safe (a : Anchor) : Prop :=
  ∀ fo hd, a.state = .Exact fo hd → fo.isSome = true

lemma fore_safe_default : fore_safe default := by
  intro fo hd h
  simp at h

lemma crossed_update_fore_safe (i score : ℕ) (crossedF : List (ℕ × ℕ × ℕ))
    (keys : List ℕ) (j : ℕ) (b : Anchor) (h : fore_safe b) :
    fore_safe (crossed_update_fore i score crossedF keys j b) := by
  unfold crossed_update_fore
  cases lookupCrossed crossedF j with
  | none => exact h
  | some rp =>
    cases hbs : b.state with
    | Exact fo bh =>
      intro fo2 hd2 heq
      simp only at heq
      rw [AlignmentState.Exact.injEq] at heq
      rw [← heq.1]
      rfl
    | Preset =>
      intro fo2 hd2 heq
      simp only at heq
      rw [hbs] at heq
      cases heq
    | Estimated e1 e2 =>
      intro fo2 hd2 heq
      simp only at heq
      rw [hbs] at heq
      cases heq
    | Dropped =>
      intro fo2 hd2 heq
      simp only at heq
      rw [hbs] at heq
      cases heq

end Sigalign

namespace Sigalign


lemma hind_success_update_length (i : ℕ) (a : Anchor) (res : AlignmentResult) (score : ℕ)
    (crossed : List (ℕ × ℕ × ℕ)) (anchors : List Anchor) :
    (hind_success_update i a res score crossed anchors).length = anchors.length := by
  unfold hind_success_update
  rw [mapWithIndex_length, List.length_set]

lemma fore_success_update_length (i : ℕ) (a : Anchor) (hind : ExactAlign)
    (res : AlignmentResult) (score : ℕ) (crossed : List (ℕ × ℕ × ℕ))
    (anchors : List Anchor) :
    (fore_success_update i a hind res score crossed anchors).length = anchors.length := by
  unfold fore_success_update
  rw [mapWithIndex_length, List.length_set]

lemma hind_alignment_step_length (ora : Oracle) (c : ACutoff) (rl ql : ℕ)
    (anchors : List Anchor) (i : ℕ) :
    (hind_alignment_step ora c rl ql anchors i).length = anchors.length := by
  unfold hind_alignment_step
  split
  · split
    · rw [List.length_set]
    · rw [hind_success_update_length]
  · rfl

lemma fore_alignment_step_length (ora : Oracle) (c : ACutoff) (rl ql : ℕ)
    (anchors : List Anchor) (i : ℕ) :
    (fore_alignment_step ora c rl ql anchors i).length = anchors.length := by
  unfold fore_alignment_step
  split
  · split
    · rw [List.length_set]
    · rw [fore_success_update_length]
  · rfl

lemma eval_pass_length (c : ACutoff) (anchors : List Anchor) :
    (eval_pass c anchors).length = anchors.length := by
  unfold eval_pass
  rw [List.length_map]

lemma alignment_step_length (ora : Oracle) (c : ACutoff) (rl ql n : ℕ)
    (anchors : List Anchor) (t : ℕ) :
    (alignment_step ora c rl ql n anchors t).length = anchors.length := by
  unfold alignment_step
  by_cases h1 : t < n
  · rw [if_pos h1, hind_alignment_step_length]
  · rw [if_neg h1]
    by_cases h2 : t < 2 * n
    · rw [if_pos h2, fore_alignment_step_length]
    · rw [if_neg h2]
      by_cases h3 : t = 2 * n
      · rw [if_pos h3, eval_pass_length]
      · rw [if_neg h3]

lemma anchors_after_length (ora : Oracle) (c : ACutoff) (rl ql : ℕ)
    (anchors0 : List Anchor) (t : ℕ) :
    (anchors_after ora c rl ql anchors0 t).length = anchors0.length := by
  induction t with
  | zero => rfl
  | succ u ih =>
    show (alignment_step ora c rl ql anchors0.length
      (anchors_after ora c rl ql anchors0 u) u).length = anchors0.length
    rw [alignment_step_length, ih]

lemma mapWithIndex_cp_pres (f : ℕ → Anchor → Anchor)
    (hf : ∀ j b, (f j b).check_points = b.check_points) (l : List Anchor) (j : ℕ) :
    ((mapWithIndex f 0 l).getD j default).check_points =
      ((l.getD j default)).check_points := by
  by_cases hj : j < l.length
  · rw [mapWithIndex_getD f l 0 j hj, hf]
  · rw [getD_eq_default_of_le _ _ _ (by rw [mapWithIndex_length]; omega),
      getD_eq_default_of_le _ _ _ (by omega)]

lemma set_cp_pres (l : List Anchor) (i : ℕ) (A : Anchor)
    (hA : A.check_points = (l.getD i default).check_points) (j : ℕ) :
    ((l.set i A).getD j default).check_points = ((l.getD j default)).check_points := by
  by_cases hj : j < l.length
  · by_cases hij : i = j
    · subst hij
      rw [getD_set_self _ _ _ _ hj, hA]
    · rw [getD_set_of_ne _ _ _ _ _ hij]
  · rw [getD_eq_default_of_le _ _ _ (by rw [List.length_set]; omega),
      getD_eq_default_of_le _ _ _ (by omega)]

lemma hind_alignment_step_cp (ora : Oracle) (c : ACutoff) (rl ql : ℕ)
    (anchors : List Anchor) (i j : ℕ) :
    ((hind_alignment_step ora c rl ql anchors i).getD j default).check_points =
      ((anchors.getD j default)).check_points := by
  unfold hind_alignment_step
  split
  · split
    · apply set_cp_pres
      rfl
    · unfold hind_success_update
      rw [mapWithIndex_cp_pres _ (fun j b => crossed_update_hind_cp _ _ _ _ j b)]
      apply set_cp_pres
      rfl
  · rfl

lemma fore_alignment_step_cp (ora : Oracle) (c : ACutoff) (rl ql : ℕ)
    (anchors : List Anchor) (i j : ℕ) :
    ((fore_alignment_step ora c rl ql anchors i).getD j default).check_points =
      ((anchors.getD j default)).check_points := by
  unfold fore_alignment_step
  split
  · split
    · apply set_cp_pres
      rfl
    · unfold fore_success_update
      rw [mapWithIndex_cp_pres _ (fun j b => crossed_update_fore_cp _ _ _ _ j b)]
      apply set_cp_pres
      rfl
  · rfl

lemma eval_pass_cp (c : ACutoff) (anchors : List Anchor) (j : ℕ) :
    ((eval_pass c anchors).getD j default).check_points =
      ((anchors.getD j default)).check_points := by
  unfold eval_pass
  by_cases hj : j < anchors.length
  · rw [getD_map_anchor _ _ _ hj]
    cases get_penalty_and_length (anchors.getD j default) with
    | none => rfl
    | some pl =>
      by_cases he : evaluate_exact_alignment pl.1 pl.2 c = true
      · simp [he]
      · simp [he, Anchor.to_dropped]
  · rw [getD_eq_default_of_le _ _ _ (by rw [List.length_map]; omega),
      getD_eq_default_of_le _ _ _ (by omega)]

lemma anchors_after_cp (ora : Oracle) (c : ACutoff) (rl ql : ℕ)
    (anchors0 : List Anchor) (t j : ℕ) :
    ((anchors_after ora c rl ql anchors0 t).getD j default).check_points =
      ((anchors0.getD j default)).check_points := by
  induction t with
  | zero => rfl
  | succ u ih =>
    show ((alignment_step ora c rl ql anchors0.length
      (anchors_after ora c rl ql anchors0 u) u).getD j default).check_points = _
    unfold alignment_step
    by_cases h1 : u < anchors0.length
    · rw [if_pos h1, hind_alignment_step_cp, ih]
    · rw [if_neg h1]
      by_cases h2 : u < 2 * anchors0.length
      · rw [if_pos h2, fore_alignment_step_cp, ih]
      · rw [if_neg h2]
        by_cases h3 : u = 2 * anchors0.length
        · rw [if_pos h3, eval_pass_cp, ih]
        · rw [if_neg h3, ih]

end Sigalign

namespace Sigalign

lemma default_anchor_state : (default : Anchor).state = .Preset := rfl

lemma dropped_at_lt_length {anchors : List Anchor} {j : ℕ} (hd : dropped_at anchors j) :
    j < anchors.length := by
  by_contra h
  unfold dropped_at at hd
  rw [getD_eq_default_of_le _ _ _ (by omega)] at hd
  rw [default_anchor_state] at hd
  cases hd

lemma hind_step_preserves_dropped (ora : Oracle) (c : ACutoff) (rl ql : ℕ)
    (anchors : List Anchor) (i j : ℕ)
    (hsafe : ∀ k, k ∈ (anchors.getD i default).check_points.hind → ¬ dropped_at anchors k)
    (hd : dropped_at anchors j) :
    dropped_at (hind_alignment_step ora c rl ql anchors i) j := by
  have hj : j < anchors.length := dropped_at_lt_length hd
  unfold hind_alignment_step
  split
  next est est2 hst =>
    have hij : i ≠ j := by
      intro h
      subst h
      rw [hd] at hst
      cases hst
    split
    · unfold dropped_at
      rw [getD_set_of_ne _ _ _ _ _ hij]
      exact hd
    next res score crossed hora =>
      unfold hind_success_update dropped_at
      rw [mapWithIndex_getD _ _ _ _ (by rw [List.length_set]; exact hj)]
      rw [getD_set_of_ne _ _ _ _ _ hij]
      cases hl : lookupCrossed
          (crossed.filter fun e => (anchors.getD i default).check_points.hind.contains e.1)
          (0 + j) with
      | none =>
        rw [crossed_update_hind_of_none _ _ _ _ hl]
        exact hd
      | some rp =>
        exfalso
        have hk := lookupCrossed_mem_keys _ _ _ hl
        have hcp := crossedF_mem_cp _ _ _ hk
        refine hsafe (0 + j) hcp ?_
        simpa using hd
  next => exact hd

lemma hind_step_new_dropped (ora : Oracle) (c : ACutoff) (rl ql : ℕ)
    (anchors : List Anchor) (i j : ℕ)
    (hd : dropped_at (hind_alignment_step ora c rl ql anchors i) j) :
    dropped_at anchors j ∨ j = i := by
  have hj : j < anchors.length := by
    have := dropped_at_lt_length hd
    rwa [hind_alignment_step_length] at this
  by_cases hij : j = i
  · right; exact hij
  left
  revert hd
  unfold hind_alignment_step
  split
  next est est2 hst =>
    split
    · intro hd
      unfold dropped_at at hd ⊢
      rwa [getD_set_of_ne _ _ _ _ _ (by omega : i ≠ j)] at hd
    next res score crossed hora =>
      intro hd
      unfold hind_success_update dropped_at at hd
      rw [mapWithIndex_getD _ _ _ _ (by rw [List.length_set]; exact hj)] at hd
      rw [getD_set_of_ne _ _ _ _ _ (by omega : i ≠ j)] at hd
      cases hl : lookupCrossed
          (crossed.filter fun e => (anchors.getD i default).check_points.hind.contains e.1)
          (0 + j) with
      | none =>
        rw [crossed_update_hind_of_none _ _ _ _ hl] at hd
        exact hd
      | some rp =>
        rw [crossed_update_hind_state_of_some _ _ _ _ hl] at hd
        cases hd
  next => intro hd; exact hd

lemma fore_step_preserves_dropped (ora : Oracle) (c : ACutoff) (rl ql : ℕ)
    (anchors : List Anchor) (i j : ℕ) (hd : dropped_at anchors j) :
    dropped_at (fore_alignment_step ora c rl ql anchors i) j := by
  have hj : j < anchors.length := dropped_at_lt_length hd
  unfold fore_alignment_step
  split
  next hind hst =>
    have hij : i ≠ j := by
      intro h
      subst h
      rw [hd] at hst
      cases hst
    split
    · unfold dropped_at
      rw [getD_set_of_ne _ _ _ _ _ hij]
      exact hd
    next res score crossed hora =>
      unfold fore_success_update dropped_at
      rw [mapWithIndex_getD _ _ _ _ (by rw [List.length_set]; exact hj)]
      rw [getD_set_of_ne _ _ _ _ _ hij]
      exact crossed_update_fore_dropped _ _ _ _ _ _ hd
  next => exact hd

lemma eval_pass_preserves_dropped (c : ACutoff) (anchors : List Anchor) (j : ℕ)
    (hd : dropped_at anchors j) :
    dropped_at (eval_pass c anchors) j := by
  have hj := dropped_at_lt_length hd
  unfold eval_pass dropped_at
  rw [getD_map_anchor _ _ _ hj]
  cases hgp : get_penalty_and_length (anchors.getD j default) with
  | none => exact hd
  | some pl =>
    by_cases he : evaluate_exact_alignment pl.1 pl.2 c = true
    · simp only [he, if_true]
      exact hd
    · simp only [he, Bool.false_eq_true, if_false]
      rfl

lemma fore_step_preserves_safe (ora : Oracle) (c : ACutoff) (rl ql : ℕ)
    (anchors : List Anchor) (i j : ℕ) (h : fore_safe (anchors.getD j default)) :
    fore_safe ((fore_alignment_step ora c rl ql anchors i).getD j default) := by
  unfold fore_alignment_step
  split
  next hind hst =>
    split
    · by_cases hj : j < anchors.length
      · by_cases hij : i = j
        · subst hij
          rw [getD_set_self _ _ _ _ hj]
          intro fo hd2 heq
          simp [Anchor.to_dropped] at heq
        · rw [getD_set_of_ne _ _ _ _ _ hij]
          exact h
      · rw [getD_eq_default_of_le _ _ _ (by rw [List.length_set]; omega)]
        exact fore_safe_default
    next res score crossed hora =>
      unfold fore_success_update
      by_cases hj : j < anchors.length
      · rw [mapWithIndex_getD _ _ _ _ (by rw [List.length_set]; exact hj)]
        apply crossed_update_fore_safe
        by_cases hij : i = j
        · subst hij
          rw [getD_set_self _ _ _ _ hj]
          intro fo hd2 heq
          simp only at heq
          rw [AlignmentState.Exact.injEq] at heq
          rw [← heq.1]
          rfl
        · rw [getD_set_of_ne _ _ _ _ _ hij]
          exact h
      · rw [getD_eq_default_of_le _ _ _
          (by rw [mapWithIndex_length, List.length_set]; omega)]
        exact fore_safe_default
  next => exact h

lemma fore_step_establishes_safe (ora : Oracle) (c : ACutoff) (rl ql : ℕ)
    (anchors : List Anchor) (i : ℕ) :
    fore_safe ((fore_alignment_step ora c rl ql anchors i).getD i default) := by
  unfold fore_alignment_step
  split
  next hind hst =>
    have hi : i < anchors.length := by
      by_contra hle
      rw [getD_eq_default_of_le _ _ _ (by omega)] at hst
      rw [default_anchor_state] at hst
      cases hst
    split
    · rw [getD_set_self _ _ _ _ hi]
      intro fo hd2 heq
      simp [Anchor.to_dropped] at heq
    next res score crossed hora =>
      unfold fore_success_update
      rw [mapWithIndex_getD _ _ _ _ (by rw [List.length_set]; exact hi)]
      apply crossed_update_fore_safe
      rw [getD_set_self _ _ _ _ hi]
      intro fo hd2 heq
      simp only at heq
      rw [AlignmentState.Exact.injEq] at heq
      rw [← heq.1]
      rfl
  next hni =>
    intro fo hd2 heq
    cases fo with
    | some f => rfl
    | none => exact absurd heq (hni hd2)

lemma anchors_after_succ_hind (ora : Oracle) (c : ACutoff) (rl ql : ℕ)
    (anchors0 : List Anchor) (t : ℕ) (ht : t < anchors0.length) :
    anchors_after ora c rl ql anchors0 (t + 1) =
      hind_alignment_step ora c rl ql (anchors_after ora c rl ql anchors0 t) t := by
  show alignment_step _ _ _ _ _ _ _ = _
  unfold alignment_step
  rw [if_pos ht]

lemma anchors_after_succ_fore (ora : Oracle) (c : ACutoff) (rl ql : ℕ)
    (anchors0 : List Anchor) (t : ℕ) (h1 : ¬ t < anchors0.length)
    (h2 : t < 2 * anchors0.length) :
    anchors_after ora c rl ql anchors0 (t + 1) =
      fore_alignment_step ora c rl ql (anchors_after ora c rl ql anchors0 t)
        (2 * anchors0.length - 1 - t) := by
  show alignment_step _ _ _ _ _ _ _ = _
  unfold alignment_step
  rw [if_neg h1, if_pos h2]

lemma anchors_after_succ_eval (ora : Oracle) (c : ACutoff) (rl ql : ℕ)
    (anchors0 : List Anchor) (t : ℕ) (h3 : t = 2 * anchors0.length) :
    anchors_after ora c rl ql anchors0 (t + 1) =
      eval_pass c (anchors_after ora c rl ql anchors0 t) := by
  show alignment_step _ _ _ _ _ _ _ = _
  unfold alignment_step
  rw [if_neg (by omega), if_neg (by omega), if_pos h3]

lemma anchors_after_succ_id (ora : Oracle) (c : ACutoff) (rl ql : ℕ)
    (anchors0 : List Anchor) (t : ℕ) (h3 : 2 * anchors0.length < t) :
    anchors_after ora c rl ql anchors0 (t + 1) =
      anchors_after ora c rl ql anchors0 t := by
  show alignment_step _ _ _ _ _ _ _ = _
  unfold alignment_step
  rw [if_neg (by omega), if_neg (by omega), if_neg (by omega)]

lemma hind_phase_K (ora : Oracle) (c : ACutoff) (rl ql : ℕ) (anchors0 : List Anchor) :
    ∀ t, t ≤ anchors0.length → ∀ j, t ≤ j →
      dropped_at (anchors_after ora c rl ql anchors0 t) j → dropped_at anchors0 j := by
  intro t
  induction t with
  | zero => intro _ j _ hd; exact hd
  | succ u ih =>
    intro hun j huj hd
    rw [anchors_after_succ_hind _ _ _ _ _ u (by omega)] at hd
    rcases hind_step_new_dropped _ _ _ _ _ _ _ hd with h | h
    · exact ih (by omega) j (by omega) h
    · omega

lemma dropped_step_mono (ora : Oracle) (c : ACutoff) (rl ql : ℕ) (anchors0 : List Anchor)
    (hcp : ∀ i j, j ∈ ((anchors0.getD i default)).check_points.hind →
      i < j ∧ ¬ dropped_at anchors0 j) :
    ∀ t j, dropped_at (anchors_after ora c rl ql anchors0 t) j →
      dropped_at (anchors_after ora c rl ql anchors0 (t + 1)) j := by
  intro t j hd
  by_cases h1 : t < anchors0.length
  · rw [anchors_after_succ_hind _ _ _ _ _ t h1]
    apply hind_step_preserves_dropped _ _ _ _ _ _ _ _ hd
    intro k hk
    rw [anchors_after_cp] at hk
    obtain ⟨htk, hnd⟩ := hcp t k hk
    intro hdk
    exact hnd (hind_phase_K ora c rl ql anchors0 t (by omega) k (by omega) hdk)
  · by_cases h2 : t < 2 * anchors0.length
    · rw [anchors_after_succ_fore _ _ _ _ _ t h1 h2]
      exact fore_step_preserves_dropped _ _ _ _ _ _ _ hd
    · by_cases h3 : t = 2 * anchors0.length
      · rw [anchors_after_succ_eval _ _ _ _ _ t h3]
        exact eval_pass_preserves_dropped _ _ _ hd
      · rw [anchors_after_succ_id _ _ _ _ _ t (by omega)]
        exact hd

lemma fore_phase_safe (ora : Oracle) (c : ACutoff) (rl ql : ℕ) (anchors0 : List Anchor) :
    ∀ u, u ≤ anchors0.length → ∀ j, anchors0.length - u ≤ j →
      fore_safe ((anchors_after ora c rl ql anchors0 (anchors0.length + u)).getD j default) := by
  intro u
  induction u with
  | zero =>
    intro _ j hj
    rw [getD_eq_default_of_le _ _ _ (by rw [anchors_after_length]; omega)]
    exact fore_safe_default
  | succ v ih =>
    intro hvn j hj
    rw [show anchors0.length + (v + 1) = (anchors0.length + v) + 1 from by omega]
    rw [anchors_after_succ_fore _ _ _ _ _ (anchors0.length + v) (by omega) (by omega)]
    rw [show 2 * anchors0.length - 1 - (anchors0.length + v) = anchors0.length - 1 - v
      from by omega]
    by_cases hji : j = anchors0.length - 1 - v
    · subst hji
      exact fore_step_establishes_safe _ _ _ _ _ _
    · apply fore_step_preserves_safe
      exact ih (by omega) j (by omega)

lemma get_penalty_and_length_isSome_of_safe (a : Anchor) (h : fore_safe a) :
    (get_penalty_and_length a).isSome = true := by
  unfold get_penalty_and_length
  split
  next fo hind heq =>
    cases fo with
    | some f => rfl
    | none =>
      have := h none hind heq
      simp at this
  next => rfl

/-- C10: after the ascending hind pass and the descending fore pass, every
anchor in the `Exact` state has its fore side populated, so the fore-side
`unwrap`s of `get_penalty_and_length` (and of `get_alignment_result`, which
reads the same field) cannot panic.  Proved for every extender oracle and
every starting anchor vector — in particular for the vector built by
`AnchorGroup::new`. -/
theorem claim_C10_exact_fore_populated (ora : Oracle) (c : ACutoff) (rl ql : ℕ)
    (anchors0 : List Anchor) (j : ℕ) :
    (∀ fo hd,
      ((anchors_after ora c rl ql anchors0 (2 * anchors0.length)).getD j default).state =
        .Exact fo hd → fo.isSome = true) ∧
    (get_penalty_and_length
      ((anchors_after ora c rl ql anchors0 (2 * anchors0.length)).getD j default)).isSome =
      true := by
  have hsafe : fore_safe
      ((anchors_after ora c rl ql anchors0 (2 * anchors0.length)).getD j default) := by
    have h := fore_phase_safe ora c rl ql anchors0 anchors0.length le_rfl j (by omega)
    rwa [show anchors0.length + anchors0.length = 2 * anchors0.length from by omega] at h
  exact ⟨hsafe, get_penalty_and_length_isSome_of_safe _ hsafe⟩

/-- Witness for C10: one anchor, an oracle succeeding on both sides; the final
state is `Exact` with a populated fore side. -/
theorem claim_C10_witness :
    (some (ExactAlign.Own ([], 0, 0))).isSome = true ∧
    (get_penalty_and_length
      ((anchors_after (fun _ _ _ => .success ([], 0, 0) 0 []) ⟨1, 1 / 2⟩ 1 1
          [⟨(0, 0), 1, .Estimated ⟨0, 0⟩ ⟨0, 0⟩, ⟨[], []⟩, none, ∅⟩]
          (2 * ([⟨(0, 0), 1, .Estimated ⟨0, 0⟩ ⟨0, 0⟩, ⟨[], []⟩, none, ∅⟩] :
            List Anchor).length)).getD 0 default)).isSome = true := by
  have h := claim_C10_exact_fore_populated (fun _ _ _ => .success ([], 0, 0) 0 [])
    ⟨1, 1 / 2⟩ 1 1 [⟨(0, 0), 1, .Estimated ⟨0, 0⟩ ⟨0, 0⟩, ⟨[], []⟩, none, ∅⟩] 0
  exact ⟨h.1 (some (.Own ([], 0, 0))) (.Own ([], 0, 0)) (by decide), h.2⟩

end Sigalign

namespace Sigalign

/-! ## The checkpoint invariant established by `AnchorGroup::new` -/

lemma scan_cp_empty (positions : List ℕ) (kmer : ℕ) :
    ∀ (anchors : List Anchor), (∀ a ∈ anchors, a.check_points = ⟨[], []⟩) →
    ∀ acc : List Anchor × List ℕ × List Anchor,
      (∀ a ∈ acc.1, a.check_points = ⟨[], []⟩) →
      (∀ a ∈ acc.2.2, a.check_points = ⟨[], []⟩) →
      (∀ a ∈ (anchors.foldl
          (fun (acc : List Anchor × List ℕ × List Anchor) anchor =>
            match positions.find? (fun p => p == anchor.position.1 + anchor.size) with
            | some p => (acc.1, acc.2.1 ++ [p], acc.2.2 ++ [anchor.impeccable_extension kmer])
            | none => (acc.1 ++ [anchor], acc.2.1, acc.2.2))
          acc).1, a.check_points = ⟨[], []⟩) ∧
      (∀ a ∈ (anchors.foldl
          (fun (acc : List Anchor × List ℕ × List Anchor) anchor =>
            match positions.find? (fun p => p == anchor.position.1 + anchor.size) with
            | some p => (acc.1, acc.2.1 ++ [p], acc.2.2 ++ [anchor.impeccable_extension kmer])
            | none => (acc.1 ++ [anchor], acc.2.1, acc.2.2))
          acc).2.2, a.check_points = ⟨[], []⟩) := by
  intro anchors
  induction anchors with
  | nil => intro _ acc h1 h2; exact ⟨h1, h2⟩
  | cons x t ih =>
    intro hanch acc h1 h2
    have hx : x.check_points = ⟨[], []⟩ := hanch x (List.mem_cons_self x t)
    have ht : ∀ a ∈ t, a.check_points = ⟨[], []⟩ :=
      fun a ha => hanch a (List.mem_cons_of_mem x ha)
    simp only [List.foldl_cons]
    cases hf : positions.find? (fun p => p == x.position.1 + x.size) with
    | none =>
      exact ih ht (acc.1 ++ [x], acc.2.1, acc.2.2)
        (by
          intro a ha
          rcases List.mem_append.mp ha with h | h
          · exact h1 a h
          · rw [List.mem_singleton] at h
            subst h
            exact hx)
        h2
    | some p =>
      exact ih ht (acc.1, acc.2.1 ++ [p], acc.2.2 ++ [x.impeccable_extension kmer]) h1
        (by
          intro a ha
          rcases List.mem_append.mp ha with h | h
          · exact h2 a h
          · rw [List.mem_singleton] at h
            subst h
            exact hx)

lemma buildStep_cp_empty (locate : List ℕ → List ℕ) (qry : List ℕ) (kmer : ℕ)
    (st : BuildState) (i : ℕ)
    (h1 : ∀ a ∈ st.preset, a.check_points = ⟨[], []⟩)
    (h2 : ∀ l, st.cache = some l → ∀ a ∈ l, a.check_points = ⟨[], []⟩) :
    (∀ a ∈ (buildStep locate qry kmer st i).preset, a.check_points = ⟨[], []⟩) ∧
    (∀ l, (buildStep locate qry kmer st i).cache = some l →
      ∀ a ∈ l, a.check_points = ⟨[], []⟩) := by
  unfold buildStep
  cases hcache : st.cache with
  | none =>
    by_cases hp : locate ((qry.drop (i * kmer)).take kmer) = []
    · simp only [hp, if_pos rfl]
      exact ⟨h1, by intro l hl; cases hl⟩
    · simp only [if_neg hp]
      refine ⟨h1, ?_⟩
      intro l hl
      rw [Option.some.injEq] at hl
      subst hl
      intro a ha
      rw [List.mem_map] at ha
      obtain ⟨p, _, rfl⟩ := ha
      rfl
  | some anchors =>
    have hanch : ∀ a ∈ anchors, a.check_points = ⟨[], []⟩ := h2 anchors hcache
    by_cases hp : locate ((qry.drop (i * kmer)).take kmer) = []
    · simp only [hp, if_pos rfl]
      refine ⟨?_, by intro l hl; cases hl⟩
      intro a ha
      rcases List.mem_append.mp ha with h | h
      · exact h1 a h
      · exact hanch a h
    · simp only [if_neg hp]
      obtain ⟨hs1, hs2⟩ := scan_cp_empty (locate ((qry.drop (i * kmer)).take kmer)) kmer
        anchors hanch ([], [], []) (by intro a ha; cases ha) (by intro a ha; cases ha)
      constructor
      · intro a ha
        rcases List.mem_append.mp ha with h | h
        · exact h1 a h
        · exact hs1 a h
      · intro l hl
        rw [Option.some.injEq] at hl
        subst hl
        intro a ha
        rcases List.mem_append.mp ha with h | h
        · exact hs2 a h
        · rw [List.mem_map] at h
          obtain ⟨p, _, rfl⟩ := h
          rfl

lemma buildLoop_cp_empty (locate : List ℕ → List ℕ) (qry : List ℕ) (kmer : ℕ) :
    ∀ n, (∀ a ∈ (buildLoop locate qry kmer n).preset, a.check_points = ⟨[], []⟩) ∧
      (∀ l, (buildLoop locate qry kmer n).cache = some l →
        ∀ a ∈ l, a.check_points = ⟨[], []⟩) := by
  intro n
  induction n with
  | zero =>
    constructor
    · intro a ha; cases ha
    · intro l hl; cases hl
  | succ m ih =>
    rw [buildLoop_succ]
    exact buildStep_cp_empty locate qry kmer _ m ih.1 ih.2

lemma buildFinal_cp_empty (locate : List ℕ → List ℕ) (qry : List ℕ) (kmer n : ℕ) :
    ∀ a ∈ (buildFinal locate qry kmer n).1, a.check_points = ⟨[], []⟩ := by
  obtain ⟨h1, h2⟩ := buildLoop_cp_empty locate qry kmer n
  unfold buildFinal
  cases hb : buildLoop locate qry kmer n with
  | mk pre cacheo ex =>
    rw [hb] at h1 h2
    simp only at h1 h2 ⊢
    cases cacheo with
    | none => exact h1
    | some l =>
      intro a ha
      rcases List.mem_append.mp ha with h | h
      · exact h1 a h
      · exact h2 l rfl a h

lemma set_state_pres (l : List Anchor) (i : ℕ) (A : Anchor)
    (hA : A.state = (l.getD i default).state) (k : ℕ) :
    ((l.set i A).getD k default).state = ((l.getD k default)).state := by
  by_cases hk : k < l.length
  · by_cases hik : i = k
    · subst hik
      rw [getD_set_self _ _ _ _ hk, hA]
    · rw [getD_set_of_ne _ _ _ _ _ hik]
  · rw [getD_eq_default_of_le _ _ _ (by rw [List.length_set]; omega),
      getD_eq_default_of_le _ _ _ (by omega)]

lemma extend_each_state (l : List Anchor) (i1 i2 k : ℕ) (h12 : i1 ≠ i2) :
    ((extend_each_check_points l i1 i2).getD k default).state =
      ((l.getD k default)).state := by
  simp only [extend_each_check_points]
  by_cases hk : k < l.length
  · by_cases hk2 : k = i2
    · subst hk2
      rw [getD_set_self _ _ _ _ (by rw [List.length_set]; exact hk)]
      simp only
      rw [getD_set_of_ne _ _ _ _ _ (by omega : i1 ≠ k)]
    · rw [getD_set_of_ne _ _ _ _ _ (by omega : i2 ≠ k)]
      by_cases hk1 : k = i1
      · subst hk1
        rw [getD_set_self _ _ _ _ hk]
      · rw [getD_set_of_ne _ _ _ _ _ (by omega : i1 ≠ k)]
  · rw [getD_eq_default_of_le _ _ _ (by rw [List.length_set, List.length_set]; omega),
      getD_eq_default_of_le _ _ _ (by omega)]

lemma extend_each_cp_hind (l : List Anchor) (i1 i2 k : ℕ) (h12 : i1 ≠ i2)
    (hi1 : i1 < l.length) :
    ((extend_each_check_points l i1 i2).getD k default).check_points.hind =
      if k = i1 then (l.getD i1 default).check_points.hind ++ [i2]
      else (l.getD k default).check_points.hind := by
  simp only [extend_each_check_points]
  by_cases hk : k < l.length
  · by_cases hk2 : k = i2
    · subst hk2
      rw [if_neg (by omega : ¬ k = i1)]
      rw [getD_set_self _ _ _ _ (by rw [List.length_set]; exact hk)]
      simp only
      rw [getD_set_of_ne _ _ _ _ _ (by omega : i1 ≠ k)]
    · rw [getD_set_of_ne _ _ _ _ _ (by omega : i2 ≠ k)]
      by_cases hk1 : k = i1
      · subst hk1
        rw [if_pos rfl]
        rw [getD_set_self _ _ _ _ hk]
      · rw [if_neg hk1]
        rw [getD_set_of_ne _ _ _ _ _ (by omega : i1 ≠ k)]
  · rw [if_neg (by omega : ¬ k = i1)]
    rw [getD_eq_default_of_le _ _ _ (by rw [List.length_set, List.length_set]; omega),
      getD_eq_default_of_le _ _ _ (by omega)]

end Sigalign

namespace Sigalign

lemma both_estimated_left (a b : Anchor) (h : Anchor.both_estimated a b = true) :
    ∃ e1 e2, a.state = .Estimated e1 e2 := by
  unfold Anchor.both_estimated at h
  rw [Bool.and_eq_true] at h
  rcases h with ⟨h1, _⟩
  cases ha : a.state with
  | Estimated e1 e2 => exact ⟨e1, e2, rfl⟩
  | Preset => rw [ha] at h1; simp at h1
  | Exact fo hd => rw [ha] at h1; simp at h1
  | Dropped => rw [ha] at h1; simp at h1

lemma both_estimated_right (a b : Anchor) (h : Anchor.both_estimated a b = true) :
    ∃ e1 e2, b.state = .Estimated e1 e2 := by
  unfold Anchor.both_estimated at h
  rw [Bool.and_eq_true] at h
  rcases h with ⟨_, h2⟩
  cases hb : b.state with
  | Estimated e1 e2 => exact ⟨e1, e2, rfl⟩
  | Preset => rw [hb] at h2; simp at h2
  | Exact fo hd => rw [hb] at h2; simp at h2
  | Dropped => rw [hb] at h2; simp at h2

/-- The invariant carried through `create_check_points`: lengths and states
are untouched, and every recorded hind checkpoint `j` of anchor `i` satisfies
`i < j` with anchor `j` in the `Estimated` state. -/
def cpCreateInv (ev cur : List Anchor) : Prop :=
  cur.length = ev.length ∧
  (∀ k, (cur.getD k default).state = (ev.getD k default).state) ∧
  (∀ i j, j ∈ (cur.getD i default).check_points.hind →
    i < j ∧ ∃ e1 e2, (cur.getD j default).state = .Estimated e1 e2)

lemma foldl_inv_mem {β : Type} (P : List Anchor → Prop) :
    ∀ (L : List β) (f : List Anchor → β → List Anchor),
      (∀ acc b, b ∈ L → P acc → P (f acc b)) →
      ∀ acc, P acc → P (L.foldl f acc) := by
  intro L
  induction L with
  | nil => intro f _ acc h; exact h
  | cons x t ih =>
    intro f hf acc h
    rw [List.foldl_cons]
    exact ih f (fun acc b hb => hf acc b (List.mem_cons_of_mem x hb)) _
      (hf acc x (List.mem_cons_self x t) h)

lemma create_step_inv (pens : Penalties) (cutoff : ACutoff) (ev : List Anchor)
    (i1 i2 : ℕ) (acc2 : List Anchor) (hinv : cpCreateInv ev acc2) :
    cpCreateInv ev
      (if i1 < i2 ∧
          Anchor.both_estimated (acc2.getD i1 default) (acc2.getD i2 default) = true ∧
          Anchor.can_be_connected (acc2.getD i1 default) (acc2.getD i2 default)
            pens cutoff = true
        then extend_each_check_points acc2 i1 i2 else acc2) := by
  split
  case isTrue h =>
    obtain ⟨h12, hest, _⟩ := h
    obtain ⟨hlen, hstates, hcp⟩ := hinv
    have hi1len : i1 < acc2.length := by
      by_contra hge
      obtain ⟨e1, e2, hst⟩ := both_estimated_left _ _ hest
      rw [getD_eq_default_of_le _ _ _ (by omega), default_anchor_state] at hst
      cases hst
    refine ⟨?_, ?_, ?_⟩
    · rw [extend_each_check_points_length]
      exact hlen
    · intro k
      rw [extend_each_state acc2 i1 i2 k (by omega : i1 ≠ i2)]
      exact hstates k
    · intro i j hj
      rw [extend_each_cp_hind acc2 i1 i2 i (by omega : i1 ≠ i2) hi1len] at hj
      by_cases hii : i = i1
      · subst hii
        rw [if_pos rfl] at hj
        rcases List.mem_append.mp hj with h | h
        · obtain ⟨hij, e1, e2, hst⟩ := hcp i j h
          exact ⟨hij, e1, e2, by rw [extend_each_state acc2 i i2 _ (by omega : i ≠ i2)]; exact hst⟩
        · rw [List.mem_singleton] at h
          subst h
          obtain ⟨e1, e2, hst⟩ := both_estimated_right _ _ hest
          exact ⟨h12, e1, e2, by rw [extend_each_state acc2 i j _ (by omega : i ≠ j)]; exact hst⟩
      · rw [if_neg hii] at hj
        obtain ⟨hij, e1, e2, hst⟩ := hcp i j hj
        exact ⟨hij, e1, e2, by rw [extend_each_state acc2 i1 i2 _ (by omega : i1 ≠ i2)]; exact hst⟩
  case isFalse => exact hinv

lemma create_check_points_inv (pens : Penalties) (cutoff : ACutoff) (ev : List Anchor)
    (hempty : ∀ k, (ev.getD k default).check_points = ⟨[], []⟩) :
    cpCreateInv ev (create_check_points pens cutoff ev) := by
  unfold create_check_points
  apply foldl_inv_mem (cpCreateInv ev)
  · intro acc i1 _ hinv
    apply foldl_inv_mem (cpCreateInv ev)
    · intro acc2 i2 _ hinv2
      exact create_step_inv pens cutoff ev i1 i2 acc2 hinv2
    · exact hinv
  · refine ⟨rfl, fun k => rfl, ?_⟩
    intro i j hj
    rw [hempty i] at hj
    simp at hj

lemma getD_mem_of_lt {l : List Anchor} {k : ℕ} (hk : k < l.length) :
    l.getD k default ∈ l := by
  induction l generalizing k with
  | nil => simp at hk
  | cons a t ih =>
    cases k with
    | zero => exact List.mem_cons_self a t
    | succ m => exact List.mem_cons_of_mem a (ih (by simpa using hk))

end Sigalign

namespace Sigalign

lemma anchor_group_new_cp_inv (ref_seq qry_seq : List ℕ) (locate : List ℕ → List ℕ)
    (kmer : ℕ) (bp : BlockPenalty) (pens : Penalties) (cutoff : ACutoff)
    (anchors0 : List Anchor)
    (hnew : AnchorGroup.new ref_seq qry_seq locate kmer bp pens cutoff = some anchors0) :
    ∀ i j, j ∈ (anchors0.getD i default).check_points.hind →
      i < j ∧ ¬ dropped_at anchors0 j := by
  unfold AnchorGroup.new at hnew
  by_cases hany : (buildFinal locate qry_seq kmer (qry_seq.length / kmer)).2.any id = true
  · rw [hany] at hnew
    simp only [Bool.not_true, Bool.false_eq_true, if_false, Option.some.injEq] at hnew
    have hempty : ∀ k,
        ((((buildFinal locate qry_seq kmer (qry_seq.length / kmer)).1.map
          (fun (a : Anchor) => a.estimate_preset ref_seq.length qry_seq.length kmer
            (buildFinal locate qry_seq kmer (qry_seq.length / kmer)).2 bp)).map
          (fun (a : Anchor) => if a.is_emp_state_valid cutoff = true then a
            else a.to_dropped)).getD k default).check_points = ⟨[], []⟩ := by
      intro k
      by_cases hk : k < (((buildFinal locate qry_seq kmer (qry_seq.length / kmer)).1.map
          (fun (a : Anchor) => a.estimate_preset ref_seq.length qry_seq.length kmer
            (buildFinal locate qry_seq kmer (qry_seq.length / kmer)).2 bp)).map
          (fun (a : Anchor) => if a.is_emp_state_valid cutoff = true then a
            else a.to_dropped)).length
      · have hmem := getD_mem_of_lt hk
        rw [List.mem_map] at hmem
        obtain ⟨b, hb, hval⟩ := hmem
        rw [List.mem_map] at hb
        obtain ⟨a, ha, hvb⟩ := hb
        have hcp := buildFinal_cp_empty locate qry_seq kmer (qry_seq.length / kmer) a ha
        rw [← hval, ← hvb]
        by_cases hv : (a.estimate_preset ref_seq.length qry_seq.length kmer
            (buildFinal locate qry_seq kmer (qry_seq.length / kmer)).2 bp).is_emp_state_valid
            cutoff = true
        · rw [if_pos hv]
          exact hcp
        · rw [if_neg hv]
          exact hcp
      · rw [getD_eq_default_of_le _ _ _ (by omega)]
        rfl
    have hinv := create_check_points_inv pens cutoff _ hempty
    rw [hnew] at hinv
    obtain ⟨_, _, hcp⟩ := hinv
    intro i j hj
    obtain ⟨hij, e1, e2, hst⟩ := hcp i j hj
    refine ⟨hij, ?_⟩
    intro hd
    unfold dropped_at at hd
    rw [hst] at hd
    cases hd
  · have hfalse : (buildFinal locate qry_seq kmer (qry_seq.length / kmer)).2.any id
        = false := by
      cases h : (buildFinal locate qry_seq kmer (qry_seq.length / kmer)).2.any id
      · rfl
      · exact absurd h hany
    rw [hfalse] at hnew
    simp at hnew

/-- C5: in one alignment call (hind pass, fore pass, checkpoint propagation on
extender success, result evaluation) over the anchors built by
`AnchorGroup::new`, once an anchor's state has been set to `Dropped` it stays
`Dropped` at every later point of the call, for every extender oracle. -/
theorem claim_C5_dropped_never_resurrected (ref_seq qry_seq : List ℕ)
    (locate : List ℕ → List ℕ) (kmer : ℕ) (bp : BlockPenalty) (pens : Penalties)
    (cutoff : ACutoff) (anchors0 : List Anchor)
    (hnew : AnchorGroup.new ref_seq qry_seq locate kmer bp pens cutoff = some anchors0)
    (ora : Oracle) (j t1 t2 : ℕ) (hle : t1 ≤ t2)
    (hdrop : dropped_at
      (anchors_after ora cutoff ref_seq.length qry_seq.length anchors0 t1) j) :
    dropped_at (anchors_after ora cutoff ref_seq.length qry_seq.length anchors0 t2) j := by
  have hcp := anchor_group_new_cp_inv ref_seq qry_seq locate kmer bp pens cutoff
    anchors0 hnew
  induction t2, hle using Nat.le_induction with
  | base => exact hdrop
  | succ u hle ih =>
    exact dropped_step_mono ora cutoff ref_seq.length qry_seq.length anchors0 hcp u j ih

/-- Witness for C5: a one-anchor construction whose extension drops out at the
first hind step; the anchor is `Dropped` after step 1 and still `Dropped` after
the full call (both passes and the evaluation). -/
theorem claim_C5_witness :
    AnchorGroup.new [0] [0] (fun _ => [0]) 1 ⟨1, 1⟩ ⟨4, 6, 2⟩ ⟨1, 1 / 2⟩ =
      some [⟨(0, 0), 1, .Estimated ⟨0, 0⟩ ⟨0, 0⟩, ⟨[], []⟩, none, ∅⟩] ∧
    (1 : ℕ) ≤ 3 ∧
    dropped_at (anchors_after (fun _ _ _ => .dropped) ⟨1, 1 / 2⟩ 1 1
      [⟨(0, 0), 1, .Estimated ⟨0, 0⟩ ⟨0, 0⟩, ⟨[], []⟩, none, ∅⟩] 1) 0 ∧
    dropped_at (anchors_after (fun _ _ _ => .dropped) ⟨1, 1 / 2⟩ 1 1
      [⟨(0, 0), 1, .Estimated ⟨0, 0⟩ ⟨0, 0⟩, ⟨[], []⟩, none, ∅⟩] 3) 0 := by
  have hvalid : Anchor.is_emp_state_valid
      ⟨(0, 0), 1, .Estimated ⟨0, 0⟩ ⟨0, 0⟩, ⟨[], []⟩, none, ∅⟩ ⟨1, 1 / 2⟩ = true := by
    unfold Anchor.is_emp_state_valid
    norm_num
  have hnew : AnchorGroup.new [0] [0] (fun _ => [0]) 1 ⟨1, 1⟩ ⟨4, 6, 2⟩ ⟨1, 1 / 2⟩ =
      some [⟨(0, 0), 1, .Estimated ⟨0, 0⟩ ⟨0, 0⟩, ⟨[], []⟩, none, ∅⟩] := by
    unfold AnchorGroup.new
    rw [show buildFinal (fun _ => [0]) [0] 1 ([0].length / 1) =
      ([(⟨(0, 0), 1, .Preset, ⟨[], []⟩, none, ∅⟩ : Anchor)], [false, true]) from by decide]
    simp only [List.any_cons, List.any_nil, id_eq, Bool.or_true, Bool.or_false,
      Bool.false_or, Bool.not_true, Bool.false_eq_true, if_false, List.map_cons,
      List.map_nil, List.length_cons, List.length_nil]
    rw [show Anchor.estimate_preset ⟨(0, 0), 1, .Preset, ⟨[], []⟩, none, ∅⟩ (0 + 1) (0 + 1)
        1 [false, true] ⟨1, 1⟩ =
      (⟨(0, 0), 1, .Estimated ⟨0, 0⟩ ⟨0, 0⟩, ⟨[], []⟩, none, ∅⟩ : Anchor) from by decide]
    rw [hvalid, if_pos rfl]
    rw [show create_check_points ⟨4, 6, 2⟩ ⟨1, 1 / 2⟩
        [(⟨(0, 0), 1, .Estimated ⟨0, 0⟩ ⟨0, 0⟩, ⟨[], []⟩, none, ∅⟩ : Anchor)] =
      [(⟨(0, 0), 1, .Estimated ⟨0, 0⟩ ⟨0, 0⟩, ⟨[], []⟩, none, ∅⟩ : Anchor)] from by decide]
  have hd1 : dropped_at (anchors_after (fun _ _ _ => .dropped) ⟨1, 1 / 2⟩ 1 1
      [⟨(0, 0), 1, .Estimated ⟨0, 0⟩ ⟨0, 0⟩, ⟨[], []⟩, none, ∅⟩] 1) 0 := by decide
  refine ⟨hnew, by decide, hd1, ?_⟩
  exact claim_C5_dropped_never_resurrected [0] [0] (fun _ => [0]) 1 ⟨1, 1⟩ ⟨4, 6, 2⟩
    ⟨1, 1 / 2⟩ [⟨(0, 0), 1, .Estimated ⟨0, 0⟩ ⟨0, 0⟩, ⟨[], []⟩, none, ∅⟩] hnew
    (fun _ _ _ => .dropped) 0 1 3 (by decide) hd1

end Sigalign

namespace Sigalign

/-! ## Claims C2 and C4: `Anchor::get_unique_symbols` and the dedup step

The source serializes each symbol (a `HashSet<usize>`) into its sorted member
vector before testing membership in `used_symbols`; the sorted vector is a
canonical injective form of the set, so the dedup test is modelled directly on
the symbol sets.  The iteration orders of the two hash containers — the
`HashSet` of valid anchors driving the symbol-extension pass and the `HashMap`
of symbols driving the dedup loop — are the explicit parameters `setOrder` and
`mapOrder`. -/

/-- Whether an anchor's state is `Exact` (the `filter_map` collecting the
default valid-anchors set). -/
def Anchor.is_exact (a : Anchor) : Bool :=
  match a.state with
  | .Exact _ _ => true
  | _ => false

/-- The `valid_anchors_set` of `Anchor::get_unique_symbols`: the given
minimum-penalty set when present, else the indices of the anchors in `Exact`
state. -/
def valid_anchors_set (anchors : List Anchor) (minPen : Option (Finset ℕ)) :
    Finset ℕ :=
  match minPen with
  | some s => s
  | none => (Finset.range anchors.length).filter
      (fun idx => (anchors.getD idx default).is_exact = true)

/-- Step 1 of the symbol dictionary: each anchor's symbol starts as the
intersection of the valid set with its `connected` set. -/
def initial_symbols (anchors : List Anchor) (valid : Finset ℕ) : ℕ → Finset ℕ :=
  fun idx => valid ∩ (anchors.getD idx default).connected

/-- Step 2 of the symbol dictionary: one pass over the valid set in `HashSet`
iteration order; each visited anchor's symbol is extended with the *current*
symbols of its members and with the anchor itself, so the result depends on
`setOrder`. -/
def extended_symbols (anchors : List Anchor) (valid : Finset ℕ)
    (setOrder : List ℕ) : ℕ → Finset ℕ :=
  setOrder.foldl
    (fun d idx => Function.update d idx ((d idx ∪ (d idx).biUnion d) ∪ {idx}))
    (initial_symbols anchors valid)

/-- The symbol dictionary computed by `Anchor::get_unique_symbols` for the
given set iteration order. -/
def anchor_symbols (anchors : List Anchor) (minPen : Option (Finset ℕ))
    (setOrder : List ℕ) : ℕ → Finset ℕ :=
  extended_symbols anchors (valid_anchors_set anchors minPen) setOrder

/-- One step of the dedup loop: keep the anchor iff its (serialized) symbol
has not been seen. -/
def unique_fold (d : ℕ → Finset ℕ) (st : Finset ℕ × Finset (Finset ℕ))
    (idx : ℕ) : Finset ℕ × Finset (Finset ℕ) :=
  if d idx ∈ st.2 then st else (insert idx st.1, insert (d idx) st.2)

/-- `Anchor::get_unique_symbols`, with the container iteration orders
explicit. -/
def get_unique_symbols (anchors : List Anchor) (minPen : Option (Finset ℕ))
    (setOrder mapOrder : List ℕ) : Finset ℕ :=
  (mapOrder.foldl (unique_fold (anchor_symbols anchors minPen setOrder))
    (∅, ∅)).1

/-- One step of the connectivity relation among surviving anchors: the spec's
connected-symbol equivalence class is the reflexive-transitive closure of this
relation. -/
def conn_step (anchors : List Anchor) (valid : Finset ℕ) (i j : ℕ) : Prop :=
  i ∈ valid ∧ j ∈ valid ∧ j ∈ (anchors.getD i default).connected

/-- An `Exact` anchor at `(i, i)` with the given `connected` set. -/
def pathAnchor (i : ℕ) (conn : Finset ℕ) : Anchor :=
  ⟨(i, i), 1, .Exact (some (.Own ([], 0, 0))) (.Own ([], 0, 0)), ⟨[], []⟩, none,
    conn⟩

/-- Five `Exact` anchors whose `connected` sets form the path `0–1–2–3–4`. -/
def pathAnchors : List Anchor :=
  [pathAnchor 0 {1}, pathAnchor 1 {0, 2}, pathAnchor 2 {1, 3},
    pathAnchor 3 {2, 4}, pathAnchor 4 {3}]

lemma unique_fold_pos (d : ℕ → Finset ℕ) (st : Finset ℕ × Finset (Finset ℕ))
    (a : ℕ) (hc : d a ∈ st.2) : unique_fold d st a = st := by
  unfold unique_fold
  rw [if_pos hc]

lemma unique_fold_neg (d : ℕ → Finset ℕ) (st : Finset ℕ × Finset (Finset ℕ))
    (a : ℕ) (hc : d a ∉ st.2) :
    unique_fold d st a = (insert a st.1, insert (d a) st.2) := by
  unfold unique_fold
  rw [if_neg hc]

lemma unique_fold_mem (d : ℕ → Finset ℕ) :
    ∀ (l : List ℕ) (st : Finset ℕ × Finset (Finset ℕ)) (i : ℕ),
      i ∈ (l.foldl (unique_fold d) st).1 → i ∈ st.1 ∨ i ∈ l := by
  intro l
  induction l with
  | nil =>
    intro st i h
    exact Or.inl h
  | cons a t ih =>
    intro st i h
    rw [List.foldl_cons] at h
    by_cases hc : d a ∈ st.2
    · rw [unique_fold_pos d st a hc] at h
      rcases ih st i h with hm | hm
      · exact Or.inl hm
      · exact Or.inr (List.mem_cons_of_mem a hm)
    · rw [unique_fold_neg d st a hc] at h
      rcases ih _ i h with hm | hm
      · rcases Finset.mem_insert.mp hm with heq | hm2
        · exact Or.inr (by rw [heq]; exact List.mem_cons_self a t)
        · exact Or.inl hm2
      · exact Or.inr (List.mem_cons_of_mem a hm)

lemma unique_fold_closed (d : ℕ → Finset ℕ) :
    ∀ (l : List ℕ) (st : Finset ℕ × Finset (Finset ℕ)),
      (∀ i ∈ st.1, d i ∈ st.2) →
      ∀ i ∈ (l.foldl (unique_fold d) st).1, d i ∈ (l.foldl (unique_fold d) st).2 := by
  intro l
  induction l with
  | nil =>
    intro st hst i hi
    exact hst i hi
  | cons a t ih =>
    intro st hst i hi
    rw [List.foldl_cons] at hi ⊢
    by_cases hc : d a ∈ st.2
    · rw [unique_fold_pos d st a hc] at hi ⊢
      exact ih st hst i hi
    · rw [unique_fold_neg d st a hc] at hi ⊢
      refine ih _ ?_ i hi
      intro k hk
      rcases Finset.mem_insert.mp hk with heq | hk2
      · rw [heq]
        exact Finset.mem_insert_self _ _
      · exact Finset.mem_insert_of_mem (hst k hk2)

lemma unique_fold_inj (d : ℕ → Finset ℕ) :
    ∀ (l : List ℕ) (st : Finset ℕ × Finset (Finset ℕ)),
      (∀ i ∈ st.1, d i ∈ st.2) →
      (∀ i ∈ st.1, ∀ j ∈ st.1, d i = d j → i = j) →
      ∀ i ∈ (l.foldl (unique_fold d) st).1,
        ∀ j ∈ (l.foldl (unique_fold d) st).1, d i = d j → i = j := by
  intro l
  induction l with
  | nil =>
    intro st _ hinj i hi j hj
    exact hinj i hi j hj
  | cons a t ih =>
    intro st hcl hinj i hi j hj
    rw [List.foldl_cons] at hi hj
    by_cases hc : d a ∈ st.2
    · rw [unique_fold_pos d st a hc] at hi hj
      exact ih st hcl hinj i hi j hj
    · rw [unique_fold_neg d st a hc] at hi hj
      refine ih _ ?_ ?_ i hi j hj
      · intro k hk
        rcases Finset.mem_insert.mp hk with heq | hk2
        · rw [heq]
          exact Finset.mem_insert_self _ _
        · exact Finset.mem_insert_of_mem (hcl k hk2)
      · intro p hp q hq hd
        rcases Finset.mem_insert.mp hp with hpa | hp2
        · rcases Finset.mem_insert.mp hq with hqa | hq2
          · rw [hpa, hqa]
          · exfalso
            apply hc
            rw [hpa] at hd
            rw [hd]
            exact hcl q hq2
        · rcases Finset.mem_insert.mp hq with hqa | hq2
          · exfalso
            apply hc
            rw [hqa] at hd
            rw [← hd]
            exact hcl p hp2
          · exact hinj p hp2 q hq2 hd

lemma unique_fold_cover (d : ℕ → Finset ℕ) :
    ∀ (l : List ℕ) (st : Finset ℕ × Finset (Finset ℕ)),
      (∀ s ∈ st.2, ∃ i ∈ st.1, d i = s) →
      ∀ s ∈ (l.foldl (unique_fold d) st).2,
        ∃ i ∈ (l.foldl (unique_fold d) st).1, d i = s := by
  intro l
  induction l with
  | nil =>
    intro st hst
    exact hst
  | cons a t ih =>
    intro st hst
    rw [List.foldl_cons]
    by_cases hc : d a ∈ st.2
    · rw [unique_fold_pos d st a hc]
      exact ih st hst
    · rw [unique_fold_neg d st a hc]
      refine ih _ ?_
      intro s hs
      rcases Finset.mem_insert.mp hs with heq | hs2
      · exact ⟨a, Finset.mem_insert_self _ _, heq.symm⟩
      · obtain ⟨i, hi, hdi⟩ := hst s hs2
        exact ⟨i, Finset.mem_insert_of_mem hi, hdi⟩

lemma unique_fold_seen_mono (d : ℕ → Finset ℕ) :
    ∀ (l : List ℕ) (st : Finset ℕ × Finset (Finset ℕ)),
      st.2 ⊆ (l.foldl (unique_fold d) st).2 := by
  intro l
  induction l with
  | nil =>
    intro st
    exact Finset.Subset.refl _
  | cons a t ih =>
    intro st
    rw [List.foldl_cons]
    by_cases hc : d a ∈ st.2
    · rw [unique_fold_pos d st a hc]
      exact ih st
    · rw [unique_fold_neg d st a hc]
      exact Finset.Subset.trans (Finset.subset_insert (d a) st.2)
        (ih (insert a st.1, insert (d a) st.2))

lemma unique_fold_processed (d : ℕ → Finset ℕ) :
    ∀ (l : List ℕ) (st : Finset ℕ × Finset (Finset ℕ)) (j : ℕ), j ∈ l →
      d j ∈ (l.foldl (unique_fold d) st).2 := by
  intro l
  induction l with
  | nil =>
    intro st j hj
    exact absurd hj (List.not_mem_nil j)
  | cons a t ih =>
    intro st j hj
    rw [List.foldl_cons]
    rcases List.mem_cons.mp hj with heq | hj2
    · refine unique_fold_seen_mono d t (unique_fold d st a) ?_
      by_cases hc : d a ∈ st.2
      · rw [unique_fold_pos d st a hc, heq]
        exact hc
      · rw [unique_fold_neg d st a hc, heq]
        exact Finset.mem_insert_self _ _
    · exact ih _ j hj2

/-- C2 (amended): `get_unique_symbols` keeps anchors of the map iteration
order only, no two kept anchors have the same computed symbol, and every
computed symbol of the map is represented by some kept anchor — i.e. exactly
one representative per *distinct computed symbol*, where the computed symbol
is the order-dependent two-step extension of `connected`, not the
transitive-closure class of the original claim. -/
theorem claim_C2_one_representative_per_symbol (anchors : List Anchor)
    (minPen : Option (Finset ℕ)) (setOrder mapOrder : List ℕ) :
    (∀ i ∈ get_unique_symbols anchors minPen setOrder mapOrder, i ∈ mapOrder) ∧
    (∀ i ∈ get_unique_symbols anchors minPen setOrder mapOrder,
      ∀ j ∈ get_unique_symbols anchors minPen setOrder mapOrder,
        anchor_symbols anchors minPen setOrder i =
          anchor_symbols anchors minPen setOrder j → i = j) ∧
    (∀ j ∈ mapOrder, ∃ i ∈ get_unique_symbols anchors minPen setOrder mapOrder,
      anchor_symbols anchors minPen setOrder i =
        anchor_symbols anchors minPen setOrder j) := by
  unfold get_unique_symbols
  refine ⟨?_, ?_, ?_⟩
  · intro i hi
    rcases unique_fold_mem _ mapOrder (∅, ∅) i hi with h | h
    · simp at h
    · exact h
  · intro i hi j hj
    exact unique_fold_inj _ mapOrder (∅, ∅) (by simp) (by simp) i hi j hj
  · intro j hj
    have hs := unique_fold_processed (anchor_symbols anchors minPen setOrder)
      mapOrder (∅, ∅) j hj
    exact unique_fold_cover _ mapOrder (∅, ∅) (by simp) _ hs

/-- Witness for C2: coverage applied on the path anchors at the concrete map
element `3`: some kept anchor carries the same computed symbol as anchor 3. -/
theorem claim_C2_witness :
    ∃ i ∈ get_unique_symbols pathAnchors none [0, 1, 2, 3, 4] [0, 1, 2, 3, 4],
      anchor_symbols pathAnchors none [0, 1, 2, 3, 4] i =
        anchor_symbols pathAnchors none [0, 1, 2, 3, 4] 3 :=
  (claim_C2_one_representative_per_symbol pathAnchors none [0, 1, 2, 3, 4]
    [0, 1, 2, 3, 4]).2.2 3 (by decide)

/-- Counterexample to C2 as stated: on the path `0–1–2–3–4` of surviving
(`Exact`) anchors, the iteration order `[0,1,2,3,4]` makes the code emit the
three representatives `{0,1,2}`, yet anchors 0 and 1 lie in the same
connected-symbol equivalence class (they are connected in a single step). -/
theorem claim_C2_counterexample :
    0 ∈ get_unique_symbols pathAnchors none [0, 1, 2, 3, 4] [0, 1, 2, 3, 4] ∧
    1 ∈ get_unique_symbols pathAnchors none [0, 1, 2, 3, 4] [0, 1, 2, 3, 4] ∧
    Relation.ReflTransGen
      (conn_step pathAnchors (valid_anchors_set pathAnchors none)) 0 1 ∧
    (0 : ℕ) ≠ 1 :=
  ⟨by decide, by decide,
    Relation.ReflTransGen.single ⟨by decide, by decide, by decide⟩, by decide⟩

/-- Modelled from the spec (amended): the deterministic first-representative
selection — scan the map iteration order, keeping each anchor whose symbol has
not occurred at an earlier position. -/
def first_representatives (d : ℕ → Finset ℕ) :
    List ℕ → Finset (Finset ℕ) → Finset ℕ
  | [], _ => ∅
  | a :: t, seen =>
    if d a ∈ seen then first_representatives d t seen
    else insert a (first_representatives d t (insert (d a) seen))

lemma unique_fold_eq_first (d : ℕ → Finset ℕ) :
    ∀ (l : List ℕ) (st : Finset ℕ × Finset (Finset ℕ)),
      (l.foldl (unique_fold d) st).1 = st.1 ∪ first_representatives d l st.2 := by
  intro l
  induction l with
  | nil =>
    intro st
    simp [first_representatives]
  | cons a t ih =>
    intro st
    rw [List.foldl_cons]
    simp only [first_representatives]
    by_cases hc : d a ∈ st.2
    · rw [unique_fold_pos d st a hc, if_pos hc, ih st]
    · rw [unique_fold_neg d st a hc, if_neg hc, ih]
      ext x
      simp only [Finset.mem_union, Finset.mem_insert]
      tauto

/-- C4 (amended): for fixed iteration orders of the two hash containers the
dedup step is fully deterministic — it equals the first-representative
selection along the map order — but the output is a function of those orders,
which Rust randomizes per process, so run-to-run equality fails (see the
counterexample). -/
theorem claim_C4_deterministic_given_orders (anchors : List Anchor)
    (minPen : Option (Finset ℕ)) (setOrder mapOrder : List ℕ) :
    get_unique_symbols anchors minPen setOrder mapOrder =
      first_representatives (anchor_symbols anchors minPen setOrder) mapOrder ∅ := by
  unfold get_unique_symbols
  rw [unique_fold_eq_first]
  simp

/-- Counterexample to C4 as stated: same anchors and mode, two duplicate-free
enumerations of the same valid set `{0,1,2,3,4}` as container iteration
orders, yet the emitted representative sets differ (`{0,1,2}` versus `{2}`). -/
theorem claim_C4_counterexample :
    ([0, 1, 2, 3, 4] : List ℕ).Nodup ∧ ([2, 1, 3, 0, 4] : List ℕ).Nodup ∧
    ([0, 1, 2, 3, 4] : List ℕ).toFinset = valid_anchors_set pathAnchors none ∧
    ([2, 1, 3, 0, 4] : List ℕ).toFinset = valid_anchors_set pathAnchors none ∧
    get_unique_symbols pathAnchors none [0, 1, 2, 3, 4] [0, 1, 2, 3, 4] =
      {0, 1, 2} ∧
    get_unique_symbols pathAnchors none [2, 1, 3, 0, 4] [2, 1, 3, 0, 4] = {2} ∧
    ({0, 1, 2} : Finset ℕ) ≠ {2} :=
  ⟨by decide, by decide, by decide, by decide, by decide, by decide, by decide⟩

end Sigalign
